import Mathlib

/-!
Verification development for the dflock plan/tree subsystem
(`src/dflock/main.py`).

The Python source is shallowly embedded below.  Pure functions become Lean
functions; functions that can raise become `Except Err`; the git backend
(the `dflock.utils` collaborator module, which is specified only through its
interface) is modelled as explicit data carried in the `App` structure
(local commits, local branch names, an oracle for `get_last_n_commits`)
and as an explicit branch-set state for the plan executor.
-/

set_option maxRecDepth 8000
set_option linter.unusedVariables false

namespace Dflock

/-! ## Commit model (`class Commit(typing.NamedTuple)`)

Python `NamedTuple` equality is componentwise tuple equality, which
corresponds to structural equality of this structure. -/

structure Commit where
  sha : String
  message : String
deriving DecidableEq, Repr

/-! ### String helpers

Python string operations used by the source, re-implemented by structural
recursion over character lists (so that closed terms evaluate inside the
kernel). -/

/-- `s[:n]` on a Python string (slicing by code points). -/
def strTake (s : String) (n : Nat) : String :=
  String.mk (s.data.take n)

/-- `sep.join(l)` for Python strings. -/
def joinSep (sep : String) : List String → String
  | [] => ""
  | [x] => x
  | x :: y :: rest => x ++ sep ++ joinSep sep (y :: rest)

/-- `s.split(sep)` for a one-character separator (e.g. `"\n"`). -/
def splitCharAux (sep : Char) : List Char → List Char → List String
  | [], acc => [String.mk acc.reverse]
  | c :: rest, acc =>
    if c = sep then String.mk acc.reverse :: splitCharAux sep rest []
    else splitCharAux sep rest (c :: acc)

/-- `s.split(sep)` for a one-character separator. -/
def splitChar (sep : Char) (s : String) : List String :=
  splitCharAux sep s.data []

/-- Maximal runs of characters satisfying `p`. -/
def runsOf (p : Char → Bool) : List Char → List (List Char)
  | [] => []
  | [c] => if p c then [[c]] else []
  | c :: c2 :: rest =>
    let rs := runsOf p (c2 :: rest)
    if p c then
      if p c2 then (c :: rs.headD []) :: rs.tail else [c] :: rs
    else rs

/-- `s.split()` (no argument): split on whitespace runs, dropping empties. -/
def pySplit (s : String) : List String :=
  (runsOf (fun c => !c.isWhitespace) s.data).map fun r => String.mk r

/-- `not s.strip()`: the string is empty or all whitespace. -/
def isBlank (s : String) : Bool :=
  s.data.all Char.isWhitespace

/-- `s.startswith(p)` for Python strings. -/
def pyStartsWith (s p : String) : Bool :=
  List.isPrefixOf p.data s.data

/-- `str.lower()` on one character (ASCII range, as in the source's use). -/
def lowerChar (c : Char) : Char :=
  if 65 ≤ c.toNat && c.toNat ≤ 90 then
    "abcdefghijklmnopqrstuvwxyz".data.getD (c.toNat - 65) c
  else c

/-- `s.lower()` for Python strings (ASCII range). -/
def lowerStr (s : String) : String :=
  String.mk (s.data.map lowerChar)

/-- `Commit.short_message`: first line of the message
(`self.message.split("\n")[0]`). -/
def Commit.short_message (c : Commit) : String :=
  (splitChar '\n' c.message).headD ""

/-- `Commit.short_str`: `f"{self.sha[:8]} {self.short_message}"`. -/
def Commit.short_str (c : Commit) : String :=
  strTake c.sha 8 ++ " " ++ c.short_message

/-! ## MD5 (`hashlib.md5`), needed by the branch-name deriver.

A direct executable implementation of MD5 over a list of bytes
(each a `Nat < 256`), with 32-bit arithmetic carried out on `Nat`
modulo `2 ^ 32`. -/

/-- UTF-8 encoding of one character (`str.encode()`), as bytes. -/
def charUtf8 (c : Char) : List Nat :=
  let n := c.toNat
  if n < 128 then [n]
  else if n < 2048 then
    [192 ||| (n >>> 6), 128 ||| (n &&& 63)]
  else if n < 65536 then
    [224 ||| (n >>> 12), 128 ||| ((n >>> 6) &&& 63), 128 ||| (n &&& 63)]
  else
    [240 ||| (n >>> 18), 128 ||| ((n >>> 12) &&& 63),
     128 ||| ((n >>> 6) &&& 63), 128 ||| (n &&& 63)]

/-- UTF-8 bytes of a string (`str.encode()`). -/
def utf8Bytes (s : String) : List Nat :=
  s.data.flatMap charUtf8

/-- Addition modulo `2 ^ 32`. -/
def add32 (a b : Nat) : Nat := (a + b) % 4294967296

/-- Bitwise complement within 32 bits. -/
def not32 (a : Nat) : Nat := 4294967295 ^^^ a

/-- Left-rotation of a 32-bit word. -/
def rotl32 (x s : Nat) : Nat :=
  ((x <<< s) ||| (x >>> (32 - s))) % 4294967296

/-- The 64 MD5 sine-based constants `K[i]`. -/
def md5K : List Nat :=
  [0xd76aa478, 0xe8c7b756, 0x242070db, 0xc1bdceee,
   0xf57c0faf, 0x4787c62a, 0xa8304613, 0xfd469501,
   0x698098d8, 0x8b44f7af, 0xffff5bb1, 0x895cd7be,
   0x6b901122, 0xfd987193, 0xa679438e, 0x49b40821,
   0xf61e2562, 0xc040b340, 0x265e5a51, 0xe9b6c7aa,
   0xd62f105d, 0x02441453, 0xd8a1e681, 0xe7d3fbc8,
   0x21e1cde6, 0xc33707d6, 0xf4d50d87, 0x455a14ed,
   0xa9e3e905, 0xfcefa3f8, 0x676f02d9, 0x8d2a4c8a,
   0xfffa3942, 0x8771f681, 0x6d9d6122, 0xfde5380c,
   0xa4beea44, 0x4bdecfa9, 0xf6bb4b60, 0xbebfbc70,
   0x289b7ec6, 0xeaa127fa, 0xd4ef3085, 0x04881d05,
   0xd9d4d039, 0xe6db99e5, 0x1fa27cf8, 0xc4ac5665,
   0xf4292244, 0x432aff97, 0xab9423a7, 0xfc93a039,
   0x655b59c3, 0x8f0ccc92, 0xffeff47d, 0x85845dd1,
   0x6fa87e4f, 0xfe2ce6e0, 0xa3014314, 0x4e0811a1,
   0xf7537e82, 0xbd3af235, 0x2ad7d2bb, 0xeb86d391]

/-- The MD5 per-round shift amounts `s[i]`. -/
def md5S : List Nat :=
  [7, 12, 17, 22, 7, 12, 17, 22, 7, 12, 17, 22, 7, 12, 17, 22,
   5, 9, 14, 20, 5, 9, 14, 20, 5, 9, 14, 20, 5, 9, 14, 20,
   4, 11, 16, 23, 4, 11, 16, 23, 4, 11, 16, 23, 4, 11, 16, 23,
   6, 10, 15, 21, 6, 10, 15, 21, 6, 10, 15, 21, 6, 10, 15, 21]

/-- MD5 nonlinear round function, by round index. -/
def md5F (i b c d : Nat) : Nat :=
  if i < 16 then (b &&& c) ||| (not32 b &&& d)
  else if i < 32 then (d &&& b) ||| (not32 d &&& c)
  else if i < 48 then b ^^^ c ^^^ d
  else c ^^^ (b ||| not32 d)

/-- MD5 message-word index schedule, by round index. -/
def md5G (i : Nat) : Nat :=
  if i < 16 then i
  else if i < 32 then (5 * i + 1) % 16
  else if i < 48 then (3 * i + 5) % 16
  else (7 * i) % 16

/-- One MD5 round: state `(a, b, c, d)`, message words `w`. -/
def md5Round (w : List Nat) (st : Nat × Nat × Nat × Nat) (i : Nat) :
    Nat × Nat × Nat × Nat :=
  let (a, b, c, d) := st
  let f := (md5F i b c d + a + md5K.getD i 0 + w.getD (md5G i) 0) % 4294967296
  (d, add32 b (rotl32 f (md5S.getD i 0)), b, c)

/-- Little-endian 32-bit word from the first four bytes of a list. -/
def leWord (bs : List Nat) : Nat :=
  bs.getD 0 0 + 256 * (bs.getD 1 0 + 256 * (bs.getD 2 0 + 256 * (bs.getD 3 0)))

/-- Process one 64-byte chunk. -/
def md5Chunk (st : Nat × Nat × Nat × Nat) (chunk : List Nat) :
    Nat × Nat × Nat × Nat :=
  let w := (List.range 16).map (fun j => leWord (chunk.drop (4 * j)))
  let (a, b, c, d) := (List.range 64).foldl (md5Round w) st
  let (h0, h1, h2, h3) := st
  (add32 h0 a, add32 h1 b, add32 h2 c, add32 h3 d)

/-- Split a byte list into 64-byte chunks (fuelled so that closed terms
reduce inside the kernel; the fuel `l.length` always suffices). -/
def chunks64Go : Nat → List Nat → List (List Nat)
  | 0, _ => []
  | _, [] => []
  | fuel + 1, b :: rest =>
    (b :: rest).take 64 :: chunks64Go fuel ((b :: rest).drop 64)

/-- Split a byte list into 64-byte chunks. -/
def chunks64 (l : List Nat) : List (List Nat) :=
  chunks64Go l.length l

/-- MD5 padding: `0x80`, zeros to 56 mod 64, then the 64-bit
little-endian bit length. -/
def md5Pad (msg : List Nat) : List Nat :=
  let bitLen := 8 * msg.length
  let zeros := (120 - ((msg.length + 1) % 64)) % 64
  msg ++ [128] ++ List.replicate zeros 0 ++
    (List.range 8).map (fun j => (bitLen >>> (8 * j)) % 256)

/-- Little-endian bytes of a 32-bit word. -/
def le4 (x : Nat) : List Nat :=
  [x % 256, (x >>> 8) % 256, (x >>> 16) % 256, (x >>> 24) % 256]

/-- MD5 digest (16 bytes) of a byte list. -/
def md5Digest (msg : List Nat) : List Nat :=
  let init := (0x67452301, 0xefcdab89, 0x98badcfe, 0x10325476)
  let (a, b, c, d) := (chunks64 (md5Pad msg)).foldl md5Chunk init
  le4 a ++ le4 b ++ le4 c ++ le4 d

/-- A lowercase hex digit. -/
def hexChar (n : Nat) : Char :=
  "0123456789abcdef".data.getD n '0'

/-- Lowercase hex of one byte. -/
def byteHex (b : Nat) : List Char :=
  [hexChar (b / 16), hexChar (b % 16)]

/-- `md5(s.encode()).hexdigest()`. -/
def md5Hexdigest (s : String) : String :=
  String.mk ((md5Digest (utf8Bytes s)).flatMap byteHex)

/-! ## Branch-name deriver (`App.get_commit_branch_name`) -/

/-- A word character, modelling Python's `\w` (over the ASCII range;
the source uses Unicode-aware `re.findall(r"\w+", ...)`). -/
def isWordChar (c : Char) : Bool := c.isAlphanum || c == '_'

/-- `re.findall(r"\w+", s)` as strings. -/
def wordTokens (s : String) : List String :=
  (runsOf isWordChar s.data).map fun r => String.mk r

/-- Split a character list at each `\x7b\x7d` placeholder pair. -/
def splitBraces : List Char → List Char → List String
  | '\x7b' :: '\x7d' :: rest, acc => String.mk acc.reverse :: splitBraces rest []
  | c :: rest, acc => splitBraces rest (c :: acc)
  | [], acc => [String.mk acc.reverse]

/-- `template.format(arg)` for a template holding `\x7b\x7d` placeholders
(the config contract guarantees exactly one placeholder). -/
def formatTemplate (t arg : String) : String :=
  joinSep arg (splitBraces t.data [])

/-- `App.get_commit_branch_name` (lines 260-264 of `main.py`):
hash the message, extract lowercase word tokens, join with hyphens,
format into the branch template.  `lowerStr` lowercases the ASCII range,
matching Python `str.lower()` on ASCII text. -/
def getCommitBranchName (branchTemplate : String) (commit : Commit) : String :=
  let uniqueish := strTake (md5Hexdigest commit.message) 8
  let words := wordTokens (lowerStr commit.message)
  let readable := joinSep "-" words
  formatTemplate branchTemplate (readable ++ "-" ++ uniqueish)

/-! ## Errors

The exception kinds the embedded code can raise.  `indexError`,
`keyError` and `valueError` model the corresponding Python built-ins
(raised by `list[i]`, `dict[k]` and `list.index`); the rest model the
exception classes of `main.py` and `click.ClickException`. -/

inductive Err where
  | parsingError (msg : String)
  | planError (msg : String) (hints : List String)
  | cherryPickFailed (msg : String) (hints : List String)
  | clickException (msg : String)
  | indexError
  | keyError
  | valueError
  | cycleError
deriving DecidableEq, Repr

instance {ε α : Type} [DecidableEq ε] [DecidableEq α] : DecidableEq (Except ε α) :=
  fun a b =>
    match a, b with
    | .ok x, .ok y => decidable_of_iff (x = y) (by simp)
    | .error e, .error f => decidable_of_iff (e = f) (by simp)
    | .ok _, .error _ => isFalse (by simp)
    | .error _, .ok _ => isFalse (by simp)

/-! ## Delta (`class Delta(typing.NamedTuple)`)

A recursive value: `target` is an optional reference to another Delta.
Python `NamedTuple` equality is componentwise (recursing into `target`),
which is structural equality of this inductive. -/

inductive Delta where
  /-- A Delta whose `target` is `None` (rooted at upstream). -/
  | root (commits : List Commit) (branch_name : String)
      (target_branch_name : String)
  /-- A Delta with a `target` Delta. -/
  | child (commits : List Commit) (target : Delta) (branch_name : String)
      (target_branch_name : String)
deriving DecidableEq, Repr

/-- Build a `Delta` from its four `NamedTuple` fields. -/
def Delta.make (commits : List Commit) (target : Option Delta)
    (branch_name target_branch_name : String) : Delta :=
  match target with
  | none => .root commits branch_name target_branch_name
  | some t => .child commits t branch_name target_branch_name

def Delta.commits : Delta → List Commit
  | .root cs _ _ => cs
  | .child cs _ _ _ => cs

def Delta.target : Delta → Option Delta
  | .root _ _ _ => none
  | .child _ t _ _ => some t

def Delta.branch_name : Delta → String
  | .root _ n _ => n
  | .child _ _ n _ => n

def Delta.target_branch_name : Delta → String
  | .root _ _ tn => tn
  | .child _ _ _ tn => tn

/-- `Delta.create_instructions`. -/
def Delta.create_instructions (d : Delta) : String :=
  "git checkout " ++ d.target_branch_name ++ "\n" ++
  "git checkout -b temporary-investigation-branch\n" ++
  "git cherry-pick " ++ joinSep " " (d.commits.map (·.sha))

/-! ## Dictionaries

Python `dict` is an insertion-ordered map; assigning to an existing key
replaces the value in place, a new key is appended. -/

/-- Insertion-ordered string-keyed dictionary. -/
abbrev Dict (α : Type) := List (String × α)

/-- `k in d`. -/
def dictMem {α : Type} (d : Dict α) (k : String) : Bool :=
  d.any fun p => p.1 == k

/-- `d.get(k)` (`d[k]` when the key is present). -/
def dictGet? {α : Type} (d : Dict α) (k : String) : Option α :=
  (d.find? fun p => p.1 == k).map (·.2)

/-- `d[k] = v`. -/
def dictInsert {α : Type} (d : Dict α) (k : String) (v : α) : Dict α :=
  if dictMem d k then d.map (fun p => if p.1 == k then (k, v) else p)
  else d ++ [(k, v)]

/-- `d.values()`. -/
def dictValues {α : Type} (d : Dict α) : List α :=
  d.map (·.2)

/-- `x.index(v)` (Python `list.index`, first match). -/
def pyListIndex {α : Type} [DecidableEq α] : List α → α → Option Nat
  | [], _ => none
  | y :: rest, x => if y = x then some 0 else (pyListIndex rest x).map (· + 1)

/-- Python `l[i]` with negative-index wrap-around. -/
def pyGet? {α : Type} (l : List α) (i : Int) : Option α :=
  if 0 ≤ i then l.get? i.toNat
  else if (-i).toNat ≤ l.length then l.get? (l.length - (-i).toNat) else none

/-- `True` iff the list holds a repeated element; equivalent to Python's
`len(l) != len(set(l))`. -/
def hasDuplicates : List String → Bool
  | [] => false
  | x :: rest => rest.contains x || hasDuplicates rest

/-! ## The `App` and its modelled git surroundings

The `dflock.utils` collaborator module (a git subprocess wrapper) is not
part of the core; the spec treats it as an external interface.  Its
observable answers are carried as data: the local commits between
upstream and local, the local branch names, the commits of the upstream
branch, and an oracle answering `get_last_n_commits(rev, n)`. -/

structure App where
  /-- Config `local` (named `localName`: `local` is a Lean keyword). -/
  localName : String
  upstream : String
  remote : String
  branch_template : String
  /-- `"first"` or `"last"`. -/
  anchor_commit : String
  /-- `utils.object_exists(upstream_name)`. -/
  upstreamExists : Bool
  /-- `utils.object_exists(local)`. -/
  localExists : Bool
  /-- `get_commits_between(upstream_name, local)`, chronological. -/
  localCommits : List Commit
  /-- `utils.get_local_branches()`. -/
  localBranches : List String
  /-- `get_last_n_commits(rev, n)`: at most `n` commits leading up to
  branch `rev` (inclusive), chronological. -/
  branchCommits : String → Nat → List Commit
  /-- `get_commits(upstream)`, chronological. -/
  upstreamCommits : List Commit

/-- `App.upstream_name`. -/
def App.upstream_name (app : App) : String :=
  if app.remote = "" then app.upstream
  else app.remote ++ "/" ++ app.upstream

/-- `App.get_commit_branch_name`. -/
def App.get_commit_branch_name (app : App) (c : Commit) : String :=
  getCommitBranchName app.branch_template c

/-- `App._get_local_commits` (lines 395-406): existence checks, then the
duplicate-message check `len(commits) != len(set(c.message for c in commits))`. -/
def App.get_local_commits (app : App) : Except Err (List Commit) :=
  if !app.upstreamExists then
    .error (.clickException ("Upstream " ++ app.upstream_name ++ " does not exist"))
  else if !app.localExists then
    .error (.clickException ("Local " ++ app.localName ++ " does not exist"))
  else if hasDuplicates (app.localCommits.map (·.message)) then
    .error (.clickException "Duplicate commit messages found in local commits.")
  else .ok app.localCommits

/-- `App._create_delta` (lines 266-278): anchor commit is `commits[0]`
("first") or `commits[-1]` (otherwise); Python raises `IndexError` on an
empty list. -/
def App.create_delta (app : App) (commits : List Commit) (target : Option Delta) :
    Except Err Delta := do
  let anchor ←
    if app.anchor_commit = "first" then
      match commits.head? with
      | some c => Except.ok c
      | none => Except.error Err.indexError
    else
      match commits.getLast? with
      | some c => Except.ok c
      | none => Except.error Err.indexError
  let branch_name := app.get_commit_branch_name anchor
  let target_branch_name :=
    match target with
    | none => app.upstream_name
    | some t => t.branch_name
  pure (Delta.make commits target branch_name target_branch_name)

/-! ## Tree builder (`App.build_tree`, lines 280-294) -/

/-- The loop of `build_tree`: each commit becomes a single-commit Delta;
when stacking, the Delta becomes the next commit's target. -/
def buildTreeGo (app : App) (stack : Bool) :
    List Commit → Option Delta → Dict Delta → Except Err (Dict Delta)
  | [], _, tree => .ok tree
  | c :: rest, target, tree => do
    let delta ← app.create_delta [c] target
    buildTreeGo app stack rest (if stack then some delta else target)
      (dictInsert tree delta.branch_name delta)

/-- `App.build_tree`. -/
def App.build_tree (app : App) (stack : Bool) : Except Err (Dict Delta) := do
  let commits ← app.get_local_commits
  buildTreeGo app stack commits none []

/-! ## Plan tokenizer (`_tokenize_plan`, `iterate_plan`, lines 552-568, 633-638) -/

/-- `class _BranchCommand(typing.NamedTuple)`. -/
structure BranchCommand where
  label : String
  target_label : Option String
  commit_sha : String
deriving DecidableEq, Repr

/-- `iterate_plan`: split into lines, skipping comments and blank lines. -/
def iteratePlan (plan : String) : List String :=
  (splitChar '\n' plan).filter fun line =>
    !(pyStartsWith line "#" || isBlank line)

/-- The optional `b` after `@` in the target part of the command
regular expression. -/
def dropOptB : List Char → List Char
  | [] => []
  | c2 :: r2 => if c2 = 'b' then r2 else c2 :: r2

/-- The regular expression `b([0-9]*)(@b?([0-9]*))?$` applied after the
leading `b`: digits forming the label, then optionally `@`, an optional
`b`, and digits forming the target label; nothing may remain. -/
def parseBranchCmd : List Char → Option (String × Option String)
  | [] => none
  | c :: rest =>
    if c = 'b' then
      let label := rest.takeWhile Char.isDigit
      match rest.dropWhile Char.isDigit with
      | [] => some (String.mk label, none)
      | c1 :: rest2 =>
        if c1 = '@' then
          let rest3 := dropOptB rest2
          let tgt := rest3.takeWhile Char.isDigit
          if rest3.dropWhile Char.isDigit = [] then
            some (String.mk label, some (String.mk tgt))
          else none
        else none
    else none

/-- The body of the `_tokenize_plan` loop for a single plan line:
`none` for a skip line, a `BranchCommand` for a `b...` line. -/
def tokenizeLine (line : String) : Except Err (Option BranchCommand) :=
  match pySplit line with
  | command :: sha :: _ =>
    if pyStartsWith command "b" then
      match parseBranchCmd command.data with
      | some (label, target) => .ok (some ⟨label, target, sha⟩)
      | none => .error (.parsingError ("unrecognized command: " ++ command))
    else if command = "s" then .ok none
    else .error (.parsingError ("unrecognized command: " ++ command))
  | _ =>
    .error (.parsingError "each line should contain at least a command and a commit SHA")

/-- `_tokenize_plan` run to completion (the source returns a generator;
errors surface lazily, which `makeCommitListsGo` below reproduces). -/
def tokenizePlan (plan : String) : Except Err (List BranchCommand) :=
  (iteratePlan plan).foldrM
    (fun line acc => do
      match ← tokenizeLine line with
      | none => pure acc
      | some bc => pure (bc :: acc))
    []

/-! ## Commit-list grouping (`App._make_commit_lists`, lines 489-514) -/

/-- `class _CommitList(typing.NamedTuple)`. -/
structure CommitList where
  label : String
  target_label : Option String
  commits : List Commit
deriving DecidableEq, Repr

/-- `next(c for c in local_commits if c.sha.startswith(p))` on a list
cursor: the first commit whose sha starts with the plan line's sha
token, together with the commits remaining after it; `none` when the
cursor is exhausted without a match (`StopIteration`). -/
def findConsume : List Commit → String → Option (Commit × List Commit)
  | [], _ => none
  | c :: rest, p =>
    if pyStartsWith c.sha p then some (c, rest) else findConsume rest p

/-- Replace the last element of a list (`branches[-1]` updates). -/
def updateLast {α : Type} (l : List α) (f : α → α) : List α :=
  match l.getLast? with
  | none => l
  | some x => l.dropLast ++ [f x]

/-- The `_make_commit_lists` loop, consuming the tokenizer lazily
line-by-line as the Python generator does. -/
def makeCommitListsGo :
    List String → List CommitList → List Commit → Except Err (List CommitList)
  | [], branches, _ => .ok branches
  | line :: rest, branches, cursor =>
    match tokenizeLine line with
    | .error e => .error e
    | .ok none => makeCommitListsGo rest branches cursor
    | .ok (some bc) =>
      let branches1 :=
        if (branches.getLast?).map (·.label) = some bc.label then branches
        else branches ++ [⟨bc.label, none, []⟩]
      match findConsume cursor bc.commit_sha with
      | none => .error (.planError "cannot match commits in plan to local commits" [])
      | some (commit, cursor') =>
        let branches2 :=
          updateLast branches1 fun cl => { cl with commits := cl.commits ++ [commit] }
        match bc.target_label with
        | none => makeCommitListsGo rest branches2 cursor'
        | some t =>
          match branches2.getLast? with
          | none => .error .indexError
          | some lastCl =>
            match lastCl.target_label with
            | none =>
              makeCommitListsGo rest
                (updateLast branches2 fun cl => { cl with target_label := some t })
                cursor'
            | some t' =>
              if t' = t then makeCommitListsGo rest branches2 cursor'
              else
                .error (.planError ("multiple targets specified for " ++ lastCl.label) [])

/-- `App._make_commit_lists` applied to a plan text. -/
def App.make_commit_lists (app : App) (plan : String) : Except Err (List CommitList) := do
  let locals ← app.get_local_commits
  makeCommitListsGo (iteratePlan plan) [] locals

/-! ## DAG construction (`App._build_tree`, lines 516-549) -/

/-- Python `f"{x}"` of a `None | str` value. -/
def optLabelStr : Option String → String
  | none => "None"
  | some s => s

/-- `set.add` on the valid-target-label set (order irrelevant; modelled as
a duplicate-free list). -/
def setInsert (l : List (Option String)) (x : Option String) : List (Option String) :=
  if l.contains x then l else l ++ [x]

/-- The error raised for an invalid target (lines 534-540). -/
def invalidTargetErr (app : App) (label : String) (target_label : Option String) : Err :=
  .planError
    ("invalid target for \"" ++ label ++ "\": \"" ++ optLabelStr target_label ++ "\"")
    ["re-order commits with `git rebase --interactive " ++ app.localName ++
      " " ++ app.upstream ++ "`"]

/-- Rekey the label-keyed dict by branch name:
`{b.branch_name: b for b in deltas.values()}`. -/
def rekeyByBranchName (deltas : Dict Delta) : Dict Delta :=
  deltas.foldl (fun acc p => dictInsert acc p.2.branch_name p.2) []

/-- Resolution of `deltas[d.target_label]` (`None` resolves to no
target; a missing key is Python's `KeyError`). -/
def resolveTarget (deltas : Dict Delta) : Option String → Except Err (Option Delta)
  | none => .ok none
  | some t =>
    match dictGet? deltas t with
    | some δ => .ok (some δ)
    | none => .error .keyError

/-- The `_build_tree` loop: `deltas` keyed by label, `last_target_label`,
and the `valid_target_labels` set.  Returns the label-keyed dict; the
branch-name rekeying happens in the `return` statement, i.e. in
`build_tree_from_lists`. -/
def buildTreeDGo (app : App) :
    List CommitList → Dict Delta → Option String → List (Option String) →
      Except Err (Dict Delta)
  | [], deltas, _, _ => .ok deltas
  | d :: rest, deltas, last_target_label, valid_target_labels =>
    if !valid_target_labels.contains d.target_label then
      .error (invalidTargetErr app d.label d.target_label)
    else
      match resolveTarget deltas d.target_label with
      | .error e => .error e
      | .ok target_branch =>
        let (last', valid') :=
          if d.target_label ≠ last_target_label then (d.target_label, [d.target_label])
          else (last_target_label, valid_target_labels)
        let valid'' := setInsert valid' (some d.label)
        match app.create_delta d.commits target_branch with
        | .error e => .error e
        | .ok delta =>
          buildTreeDGo app rest (dictInsert deltas d.label delta) last' valid''

/-- `App._build_tree`. -/
def App.build_tree_from_lists (app : App) (candidate_deltas : List CommitList) :
    Except Err (Dict Delta) :=
  (buildTreeDGo app candidate_deltas [] none [none]).map rekeyByBranchName

/-- `App.parse_plan` (lines 344-347). -/
def App.parse_plan (app : App) (plan : String) : Except Err (Dict Delta) := do
  let commit_lists ← app.make_commit_lists plan
  app.build_tree_from_lists commit_lists

/-! ## Plan rendering (`App.render_plan`, lines 349-370) -/

/-- A decimal digit character. -/
def digitChar10 (d : Nat) : Char :=
  "0123456789".data.getD d '0'

/-- Decimal digit characters of `n`, most significant first (fuelled so
that closed terms reduce in the kernel; `natStr` supplies enough fuel). -/
def natStrGo : Nat → Nat → List Char → List Char
  | 0, _, acc => acc
  | fuel + 1, n, acc =>
    if n < 10 then digitChar10 n :: acc
    else natStrGo fuel (n / 10) (digitChar10 (n % 10) :: acc)

/-- Decimal representation of a natural number, modelling Python's
`f"{i}"` formatting of an `int`. -/
def natStr (n : Nat) : String :=
  String.mk (natStrGo (n + 1) n [])

/-- Proof-side recursive form of the decimal digits (not used in
executable paths). -/
def natStrCore (n : Nat) : List Char :=
  if _h : n < 10 then [digitChar10 n]
  else natStrCore (n / 10) ++ [digitChar10 (n % 10)]
decreasing_by exact Nat.div_lt_self (by omega) (by omega)

/-- Left-to-right decimal value of a digit string (proof-side). -/
def digitsVal : List Char → Nat → Nat
  | [], v => v
  | c :: rest, v => digitsVal rest (v * 10 + (c.toNat - 48))

/-- Stable insertion into a key-sorted list (equal keys: the inserted
element goes first, preserving original order under `foldr`). -/
def sortInsert (x : Nat × Delta) : List (Nat × Delta) → List (Nat × Delta)
  | [] => [x]
  | y :: rest => if x.1 ≤ y.1 then x :: y :: rest else y :: sortInsert x rest

/-- Stable sort by key, modelling Python's stable `sorted(..., key=...)`. -/
def sortByKey (l : List (Nat × Delta)) : List (Nat × Delta) :=
  l.foldr sortInsert []

/-- `next((i, d) for i, d in enumerate(sorted_deltas) if commit in d.commits)`. -/
def findDeltaIdx (commit : Commit) : Nat → List Delta → Option (Nat × Delta)
  | _, [] => none
  | i, d :: rest =>
    if d.commits.contains commit then some (i, d) else findDeltaIdx commit (i + 1) rest

/-- The sort key of one Delta: the chronological index of its first
commit (`local_commits.index(d.commits[0])`; `IndexError` on an empty
Delta, `ValueError` when the commit is not local). -/
def renderKey (local_commits : List Commit) (d : Delta) : Except Err (Nat × Delta) := do
  let c0 ← match d.commits.head? with
    | some c => Except.ok c
    | none => Except.error Err.indexError
  match pyListIndex local_commits c0 with
  | some i => Except.ok ((i, d) : Nat × Delta)
  | none => Except.error Err.valueError

/-- One rendered plan line for a local commit: `s` by default, `b<i>`
with an optional `@b<target-i>` when the commit belongs to a Delta. -/
def renderLine (sorted_deltas : List Delta) (commit : Commit) : Except Err String := do
  match findDeltaIdx commit 0 sorted_deltas with
  | none => Except.ok ("s" ++ " " ++ commit.short_str)
  | some (d_i, delta) => do
    let command := "b" ++ natStr d_i
    let command ← match delta.target with
      | none => Except.ok command
      | some t =>
        match pyListIndex sorted_deltas t with
        | some target_i => Except.ok (command ++ "@b" ++ natStr target_i)
        | none => Except.error Err.valueError
    Except.ok (command ++ " " ++ commit.short_str)

/-- `App.render_plan`. -/
def App.render_plan (app : App) (tree : Dict Delta) : Except Err String := do
  let local_commits ← app.get_local_commits
  let keyed ← (dictValues tree).mapM (renderKey local_commits)
  let sorted_deltas := (sortByKey keyed).map (·.2)
  let lines ← local_commits.mapM (renderLine sorted_deltas)
  pure (joinSep "\n" lines)

/-! ## Tree reconstructor (`App.reconstruct_tree` and helpers,
lines 296-342, 408-487) -/

/-- The state-corruption message of `_infer_delta_last_commit`
(lines 422-429; only the first placeholder is interpolated in the
source — the second brace group is literal text from a non-f-string
segment). -/
def invalidStateMsg (app : App) (commit : Commit) : String :=
  "Invalid state: dflock-managed branch name " ++
  app.get_commit_branch_name commit ++
  " does not match branch name expected based on its last commit.\n\nRun\n\ngit branch -D \x7bcommit.branch_name(self.branch_template)\x7d\n\nto remove the offending branch. Or run\n\ndfl reset\n\nif you\x27d like to start with a clean slate."

/-- The reverse walk of `_infer_delta_last_commit` (lines 434-457) over
the reversed candidate commits, accumulating prepended known commits
until hitting another tree branch (the target) or an unknown message. -/
def walkLast (app : App) (commitName : String) (commits_by_message : Dict Commit)
    (tree : Dict Delta) :
    List Commit → List Commit → Option Delta × List Commit
  | [], commits => (none, commits)
  | cc :: rest, commits =>
    let branch_name := app.get_commit_branch_name cc
    if dictMem tree branch_name && !(branch_name == commitName) then
      (dictGet? tree branch_name, commits)
    else
      match dictGet? commits_by_message cc.message with
      | some c => walkLast app commitName commits_by_message tree rest (c :: commits)
      | none => (none, commits)

/-- `App._infer_delta_last_commit` (lines 408-458).  The non-fatal
"unknown commit message" warning is console output only and is not part
of the returned value. -/
def App.infer_delta_last_commit (app : App) (commit : Commit) (i : Nat)
    (commits_by_message : Dict Commit) (tree : Dict Delta) (root : Commit) :
    Except Err Delta := do
  let candidate_commits :=
    app.branchCommits (app.get_commit_branch_name commit) (i + 1)
  let tip ← match candidate_commits.getLast? with
    | some c => Except.ok c
    | none => Except.error Err.indexError
  if app.get_commit_branch_name tip ≠ app.get_commit_branch_name commit then
    .error (.clickException (invalidStateMsg app commit))
  else
    let (target, commits) :=
      walkLast app (app.get_commit_branch_name commit) commits_by_message tree
        candidate_commits.reverse []
    app.create_delta commits target

/-- The target search of `_infer_delta_first_commit` (lines 477-480):
the first previously-built Delta whose last commit's message equals the
message of `candidate_commits[start_index - 1]` (a Python negative index
when `start_index = 0`).  The indexing happens inside the loop body, so
an empty tree never evaluates it. -/
def findFirstTarget (treeVals : List Delta) (candidate_commits : List Commit)
    (start_index : Nat) : Except Err (Option Delta) :=
  match treeVals with
  | [] => .ok none
  | d :: rest =>
    match pyGet? candidate_commits ((start_index : Int) - 1) with
    | none => .error .indexError
    | some prev =>
      match d.commits.getLast? with
      | none => .error .indexError
      | some lastC =>
        if lastC.message = prev.message then .ok (some d)
        else findFirstTarget rest candidate_commits start_index

/-- The forward walk of `_infer_delta_first_commit` (lines 481-486):
accumulate known commits, stopping at the first unknown message
(which only prints a warning). -/
def walkFirst (commits_by_message : Dict Commit) : List Commit → List Commit
  | [] => []
  | cc :: rest =>
    match dictGet? commits_by_message cc.message with
    | some c => c :: walkFirst commits_by_message rest
    | none => []

/-- `App._infer_delta_first_commit` (lines 460-487). -/
def App.infer_delta_first_commit (app : App) (commit : Commit) (i : Nat)
    (commits_by_message : Dict Commit) (tree : Dict Delta) (root : Commit) :
    Except Err Delta := do
  let n_local := commits_by_message.length
  let candidate_commits :=
    app.branchCommits (app.get_commit_branch_name commit) (n_local - i + 1)
  let start_index ←
    match pyListIndex (candidate_commits.map app.get_commit_branch_name)
        (app.get_commit_branch_name commit) with
    | some j => Except.ok j
    | none => Except.error Err.valueError
  let target ← findFirstTarget (dictValues tree) candidate_commits start_index
  let branch_commits := walkFirst commits_by_message (candidate_commits.drop start_index)
  app.create_delta branch_commits target

/-- The loop of `reconstruct_tree` over enumerated local commits. -/
def reconstructGo (app : App) (commits_by_message : Dict Commit) (root : Commit) :
    List (Nat × Commit) → Dict Delta → Except Err (Dict Delta)
  | [], tree => .ok tree
  | (i, commit) :: rest, tree =>
    if app.localBranches.contains (app.get_commit_branch_name commit) then do
      let delta ←
        if app.anchor_commit = "first" then
          app.infer_delta_first_commit commit i commits_by_message tree root
        else
          app.infer_delta_last_commit commit i commits_by_message tree root
      reconstructGo app commits_by_message root rest
        (dictInsert tree delta.branch_name delta)
    else reconstructGo app commits_by_message root rest tree

/-- `App.reconstruct_tree` (lines 296-342). -/
def App.reconstruct_tree (app : App) : Except Err (Dict Delta) := do
  let commits ← app.get_local_commits
  let commits_by_message := commits.foldl (fun acc c => dictInsert acc c.message c) []
  let root ← match app.upstreamCommits.head? with
    | some c => Except.ok c
    | none => Except.error Err.indexError
  reconstructGo app commits_by_message root commits.enum []

/-! ## Plan executor (`write_plan`, lines 595-630)

The git backend is modelled by the set of existing local branch names.
`utils.checkout` and the scoped `utils.temporary_branch()` leave the
named-branch set unchanged (the temporary branch is deleted on all exit
paths); whether a cherry-pick succeeds depends on repository content
outside this model, so it is an oracle. -/

structure GitState where
  branches : List String
deriving DecidableEq, Repr

/-- `Delta.branch_exists` against the modelled state. -/
def branchExists (st : GitState) (name : String) : Bool :=
  st.branches.contains name

/-- `git branch -D name`. -/
def deleteBranch (st : GitState) (name : String) : GitState :=
  ⟨st.branches.filter fun b => !(b == name)⟩

/-- `git checkout -b name`. -/
def createBranch (st : GitState) (name : String) : GitState :=
  ⟨st.branches ++ [name]⟩

/-- The dependency graph `{name: [target name]}` built by `write_plan`
(lines 605-610), mapping each branch name to its predecessors. -/
def buildDag (tree : Dict Delta) : Dict (List String) :=
  tree.foldl
    (fun dag p =>
      let dag1 := if dictMem dag p.1 then dag else dictInsert dag p.1 []
      match p.2.target with
      | none => dag1
      | some t =>
        dictInsert dag1 p.1 ((dictGet? dag1 p.1).getD [] ++ [t.branch_name]))
    []

/-- `graphlib.TopologicalSorter` auto-creates nodes for predecessors that
were never added as keys. -/
def tsNodes (dag : Dict (List String)) : Dict (List String) :=
  dag.foldl
    (fun acc p =>
      p.2.foldl
        (fun acc2 t => if dictMem acc2 t then acc2 else dictInsert acc2 t []) acc)
    dag

/-- Nodes all of whose predecessors are done, and which are not yet done. -/
def topoReady (dag : Dict (List String)) (done : List String) : List String :=
  (dag.filter fun p => !done.contains p.1 && p.2.all done.contains).map (·.1)

/-- Kahn rounds for `TopologicalSorter.static_order`; `dag.length` rounds
always suffice on an acyclic graph.  A round yielding no ready node with
nodes remaining is `graphlib.CycleError`.  (The modelled round order is a
valid static order; `write_plan`'s returned mapping does not depend on
which valid order is used.) -/
def topoGo (dag : Dict (List String)) : Nat → List String → Except Err (List String)
  | 0, done => if done.length = dag.length then .ok done else .error .cycleError
  | fuel + 1, done =>
    let ready := topoReady dag done
    if ready.isEmpty then
      if done.length = dag.length then .ok done else .error .cycleError
    else topoGo dag fuel (done ++ ready)

/-- `TopologicalSorter(dag).static_order()`. -/
def staticOrder (dag : Dict (List String)) : Except Err (List String) :=
  let nodes := tsNodes dag
  topoGo nodes nodes.length []

/-- The per-branch body of the `write_plan` loop (lines 613-629). -/
def writePlanGo (cherryPickOk : Delta → Bool) (tree : Dict Delta) :
    List String → GitState → Dict Bool → Except Err (Dict Bool × GitState)
  | [], st, updated => .ok (updated, st)
  | branch_name :: rest, st, updated =>
    match dictGet? tree branch_name with
    | none => .error .keyError
    | some delta =>
      if !cherryPickOk delta then
        .error (.cherryPickFailed
          ("Cherry-pick failed at branch " ++ delta.branch_name ++ ".")
          ["To reproduce the failed cherry-pick, run the following commands:\n\n" ++
            delta.create_instructions])
      else
        let (st1, updated1) :=
          if branchExists st delta.branch_name then
            (deleteBranch st delta.branch_name,
             dictInsert updated delta.branch_name true)
          else (st, updated)
        let st2 := createBranch st1 delta.branch_name
        let updated2 := dictInsert updated1 delta.branch_name false
        writePlanGo cherryPickOk tree rest st2 updated2

/-- `write_plan` (lines 595-630): topologically order the branches and
(re)create each; the returned dict is documented to map each branch name
to `True` only if the branch already existed and was re-created. -/
def writePlan (cherryPickOk : Delta → Bool) (tree : Dict Delta) (st : GitState) :
    Except Err (Dict Bool × GitState) := do
  let order ← staticOrder (buildDag tree)
  writePlanGo cherryPickOk tree order st []

/-! ## Concrete instances used by witnesses and counterexamples -/

/-- A four-commit `App` (flat git surroundings), mirroring the repository's
own test fixture of commits `a`, `b`, `c`, `d`. -/
def wApp : App :=
  { localName := "local", upstream := "upstream", remote := "",
    branch_template := "test/\x7b\x7d", anchor_commit := "first",
    upstreamExists := true, localExists := true,
    localCommits := [⟨"1000", "a"⟩, ⟨"2000", "b"⟩, ⟨"3000", "c"⟩, ⟨"4000", "d"⟩],
    localBranches := [],
    branchCommits := fun _ _ => [],
    upstreamCommits := [⟨"rr", "root"⟩] }

/-- A last-anchor variant of `wApp` whose branch-commit oracle answers a
single commit unrelated to the local commits. -/
def w5App : App :=
  { wApp with
    anchor_commit := "last",
    branchCommits := fun _ _ => [⟨"9000", "zz"⟩] }

/-- The commit of the `write_plan` failing input. -/
def wC1Commit : Commit := ⟨"aa", "add feature"⟩

/-- Its derived branch name. -/
def wC1Name : String := getCommitBranchName "\x7b\x7d" wC1Commit

/-- A one-Delta tree for the `write_plan` failing input. -/
def wC1Tree : Dict Delta := [(wC1Name, Delta.root [wC1Commit] wC1Name "origin/main")]

/-- A first-anchor variant of `wApp` whose branch-commit oracle answers
exactly the first local commit. -/
def w10App : App :=
  { wApp with
    branchCommits := fun _ _ => [⟨"1000", "a"⟩] }

/-- The last `n` elements of a list (how `get_last_n_commits` answers for
a branch whose history is `l`, chronological). -/
def lastN {α : Type} (n : Nat) (l : List α) : List α :=
  l.drop (l.length - n)

/-- Local commit `a` of the reconstructor counterexample. -/
def cexCA : Commit := ⟨"aa", "ma"⟩

/-- Local commit `b` of the reconstructor counterexample, stacked on `a`. -/
def cexCB : Commit := ⟨"bb", "mb"⟩

/-- Local commit `c` of the reconstructor counterexample, independent. -/
def cexCC : Commit := ⟨"cd", "mc"⟩

/-- The shared root commit of the counterexample's branches. -/
def cexRoot : Commit := ⟨"rr", "root"⟩

/-- Derived branch name under the counterexample's template. -/
def cexName (c : Commit) : String := getCommitBranchName "test/\x7b\x7d" c

/-- A last-anchor `App` with three dflock-managed branches: `a` and `c`
rooted at upstream, `b` stacked on `a`.  Reconstruction succeeds, but the
rendered plan interleaves the stack `a`-`b` with the independent `c`. -/
def cexApp : App :=
  { localName := "main", upstream := "main", remote := "origin",
    branch_template := "test/\x7b\x7d", anchor_commit := "last",
    upstreamExists := true, localExists := true,
    localCommits := [cexCA, cexCB, cexCC],
    localBranches := [cexName cexCA, cexName cexCB, cexName cexCC],
    branchCommits := fun name n =>
      if name = cexName cexCA then lastN n [cexRoot, cexCA]
      else if name = cexName cexCB then lastN n [cexRoot, cexCA, cexCB]
      else if name = cexName cexCC then lastN n [cexRoot, cexCC]
      else [],
    upstreamCommits := [cexRoot] }

/-- The tree `reconstruct_tree` recovers for `cexApp`. -/
def cexTree : Dict Delta :=
  [(cexName cexCA, Delta.root [cexCA] (cexName cexCA) "origin/main"),
   (cexName cexCB, Delta.child [cexCB]
     (Delta.root [cexCA] (cexName cexCA) "origin/main")
     (cexName cexCB) (cexName cexCA)),
   (cexName cexCC, Delta.root [cexCC] (cexName cexCC) "origin/main")]

/-- The plan `render_plan` produces for `cexTree`. -/
def cexPlan : String := "b0 aa ma\nb1@b0 bb mb\nb2 cd mc"

/-! ## Expected builder shapes (used to state Claim C7 and Claim C2) -/

/-- The single-commit Delta `build_tree` creates for one commit. -/
def singleDelta (app : App) (c : Commit) (target : Option Delta) : Delta :=
  Delta.make [c] target (app.get_commit_branch_name c)
    (match target with
     | none => app.upstream_name
     | some t => t.branch_name)

/-- The tree `build_tree stack=False` produces: independent single-commit
Deltas, every target null (upstream). -/
def flatTree (app : App) (cs : List Commit) : Dict Delta :=
  cs.map fun c => (app.get_commit_branch_name c, singleDelta app c none)

/-- The Deltas `build_tree stack=True` produces: a linear chain, each
commit's Delta targeting the Delta of the immediately preceding commit,
the first targeting `target` (null/upstream at the top level). -/
def stackDeltas (app : App) : List Commit → Option Delta → List Delta
  | [], _ => []
  | c :: rest, target =>
    singleDelta app c target :: stackDeltas app rest (some (singleDelta app c target))

/-- The tree `build_tree stack=True` produces. -/
def stackTree (app : App) (cs : List Commit) : Dict Delta :=
  (stackDeltas app cs none).map fun d => (d.branch_name, d)

/-! ## Expected render/parse artifacts for builder trees (Claim C2) -/

/-- The command token of line `i` of a rendered flat plan. -/
def flatCmd (i : Nat) : String := "b" ++ natStr i

/-- The command token of line `i` of a rendered stacked plan. -/
def stackCmd (i : Nat) : String :=
  if i = 0 then "b" ++ natStr 0 else "b" ++ natStr i ++ "@b" ++ natStr (i - 1)

/-- One rendered plan line: command, sha prefix, short message. -/
def planLineOf (cmdOf : Nat → String) (p : Nat × Commit) : String :=
  cmdOf p.1 ++ " " ++ p.2.short_str

/-- The commit-list the parser builds from line `i` of a flat plan. -/
def flatList (p : Nat × Commit) : CommitList :=
  ⟨natStr p.1, none, [p.2]⟩

/-- The commit-list the parser builds from line `i` of a stacked plan. -/
def stackList (p : Nat × Commit) : CommitList :=
  ⟨natStr p.1, if p.1 = 0 then none else some (natStr (p.1 - 1)), [p.2]⟩

/-- The label-keyed delta dict `_build_tree` accumulates over a stacked
plan's tail, chaining each Delta onto the previous one. -/
def stackPairsFrom (app : App) : Nat → List Commit → Delta → Dict Delta
  | _, [], _ => []
  | k, c :: rest, dPrev =>
    (natStr k, singleDelta app c (some dPrev)) ::
      stackPairsFrom app (k + 1) rest (singleDelta app c (some dPrev))

/-! # Lemmas and claim theorems -/

theorem Delta.make_commits (cs : List Commit) (t : Option Delta) (n tn : String) :
    (Delta.make cs t n tn).commits = cs := by
  cases t <;> rfl

theorem Delta.make_target (cs : List Commit) (t : Option Delta) (n tn : String) :
    (Delta.make cs t n tn).target = t := by
  cases t <;> rfl

theorem Delta.make_branch_name (cs : List Commit) (t : Option Delta) (n tn : String) :
    (Delta.make cs t n tn).branch_name = n := by
  cases t <;> rfl

theorem Delta.make_target_branch_name (cs : List Commit) (t : Option Delta)
    (n tn : String) : (Delta.make cs t n tn).target_branch_name = tn := by
  cases t <;> rfl

/-- `Delta.make` is injective in all four fields, so structural equality of
`Delta` coincides with Python's componentwise `NamedTuple` equality. -/
theorem Delta.make_inj {cs cs' : List Commit} {t t' : Option Delta}
    {n n' tn tn' : String} :
    Delta.make cs t n tn = Delta.make cs' t' n' tn' ↔
      cs = cs' ∧ t = t' ∧ n = n' ∧ tn = tn' := by
  cases t <;> cases t' <;> simp [Delta.make]

/-! ### Decimal string lemmas -/

theorem natStrGo_eq_core : ∀ (fuel n : Nat) (acc : List Char),
    n < 10 ^ (fuel + 1) → natStrGo (fuel + 1) n acc = natStrCore n ++ acc := by
  intro fuel
  induction fuel with
  | zero =>
    intro n acc h
    have hn : n < 10 := by simpa using h
    simp [natStrGo, natStrCore, hn]
  | succ fuel ih =>
    intro n acc h
    by_cases hn : n < 10
    · simp [natStrGo, natStrCore, hn]
    · have hdiv : n / 10 < 10 ^ (fuel + 1) := by
        refine (Nat.div_lt_iff_lt_mul (by omega)).mpr ?_
        calc n < 10 ^ (fuel + 1 + 1) := h
        _ = 10 ^ (fuel + 1) * 10 := by rw [pow_succ]
      rw [natStrGo, if_neg hn, ih _ _ hdiv]
      conv_rhs => rw [natStrCore]
      simp [hn]

theorem natStr_eq_core (n : Nat) : (natStr n).data = natStrCore n := by
  have hlt : n < 10 ^ (n + 1) := by
    calc n < 2 ^ n * 1 := by simpa using Nat.lt_two_pow n
    _ ≤ 10 ^ n * 10 := Nat.mul_le_mul (Nat.pow_le_pow_left (by omega) n) (by omega)
    _ = 10 ^ (n + 1) := by rw [Nat.pow_succ]
  simp [natStr, natStrGo_eq_core n n [] hlt]

theorem digitsVal_append (l1 l2 : List Char) (v : Nat) :
    digitsVal (l1 ++ l2) v = digitsVal l2 (digitsVal l1 v) := by
  induction l1 generalizing v with
  | nil => rfl
  | cons c rest ih => simp [digitsVal, ih]

theorem digitChar10_toNat {d : Nat} (h : d < 10) : (digitChar10 d).toNat - 48 = d := by
  interval_cases d <;> decide

theorem digitChar10_isDigit {d : Nat} (h : d < 10) : (digitChar10 d).isDigit = true := by
  interval_cases d <;> decide

theorem natStrCore_val (n : Nat) :
    ∀ v, digitsVal (natStrCore n) v = v * 10 ^ (natStrCore n).length + n := by
  induction n using Nat.strong_induction_on with
  | _ n ih =>
    intro v
    rw [natStrCore]
    by_cases h : n < 10
    · simp [h, digitsVal, digitChar10_toNat h]
    · simp only [h, dite_false]
      rw [digitsVal_append, ih (n / 10) (Nat.div_lt_self (by omega) (by omega))]
      simp only [digitsVal, List.length_append, List.length_cons, List.length_nil]
      rw [digitChar10_toNat (Nat.mod_lt n (by omega))]
      generalize (natStrCore (n / 10)).length = L
      calc (v * 10 ^ L + n / 10) * 10 + n % 10
          = v * (10 ^ L * 10) + (10 * (n / 10) + n % 10) := by ring
        _ = v * 10 ^ (L + 1) + n := by rw [Nat.div_add_mod, pow_succ]
        _ = v * 10 ^ (L + 0 + 1) + n := by norm_num

theorem natStrCore_inj {m n : Nat} (h : natStrCore m = natStrCore n) : m = n := by
  have hm := natStrCore_val m 0
  have hn := natStrCore_val n 0
  rw [h] at hm
  omega

theorem natStr_inj {m n : Nat} (h : natStr m = natStr n) : m = n := by
  apply natStrCore_inj
  have := congrArg String.data h
  rwa [natStr_eq_core, natStr_eq_core] at this

theorem natStrCore_digits (n : Nat) : ∀ c ∈ natStrCore n, c.isDigit = true := by
  induction n using Nat.strong_induction_on with
  | _ n ih =>
    rw [natStrCore]
    by_cases h : n < 10
    · simp only [h, dite_true, List.mem_singleton]
      rintro c rfl
      exact digitChar10_isDigit h
    · simp only [h, dite_false, List.mem_append, List.mem_singleton]
      rintro c (hc | rfl)
      · exact ih (n / 10) (Nat.div_lt_self (by omega) (by omega)) c hc
      · exact digitChar10_isDigit (Nat.mod_lt n (by omega))

theorem natStrCore_ne_nil (n : Nat) : natStrCore n ≠ [] := by
  rw [natStrCore]
  by_cases h : n < 10 <;> simp [h]

/-! ### Claim C8 -/

/-- Claim C8 counterexample: two `Commit` values with equal `sha` but
different `message` are NOT equal — `NamedTuple` equality is
componentwise, not sha-only as claimed. -/
theorem claim_c8_counterexample :
    (Commit.mk "abc" "x").sha = (Commit.mk "abc" "y").sha ∧
      Commit.mk "abc" "x" ≠ Commit.mk "abc" "y" := by
  decide

/-- Claim C8 (amended): `Commit` values are equal exactly when BOTH their
`sha` and `message` fields are equal; membership and index lookups (as
used by `render_plan`) therefore compare whole values, not shas. -/
theorem claim_c8 (c c' : Commit) :
    c = c' ↔ c.sha = c'.sha ∧ c.message = c'.message := by
  cases c
  cases c'
  simp

/-! ### Claim C6 -/

/-- Claim C6 counterexample: for the template `"{}"` and the message
`"!!!"` (zero word tokens), the derived branch name is NOT the template
formatted with just the 8-hex-character hash — a hyphen precedes the
hash. -/
theorem claim_c6_counterexample :
    wordTokens (lowerStr "!!!") = [] ∧
      getCommitBranchName "\x7b\x7d" ⟨"s1", "!!!"⟩ ≠
        formatTemplate "\x7b\x7d" (strTake (md5Hexdigest "!!!") 8) := by
  decide

/-- Claim C6 (amended): for every commit whose message contains zero word
tokens, the derived branch name is the template formatted with a hyphen
followed by the 8-hex-character content hash of the message. -/
theorem claim_c6 (template : String) (c : Commit)
    (h : wordTokens (lowerStr c.message) = []) :
    getCommitBranchName template c =
      formatTemplate template ("-" ++ strTake (md5Hexdigest c.message) 8) := by
  unfold getCommitBranchName
  rw [h]
  rfl

theorem claim_c6_witness :
    wordTokens (lowerStr "!!!") = [] ∧
      getCommitBranchName "\x7b\x7d" ⟨"s1", "!!!"⟩ =
        formatTemplate "\x7b\x7d" ("-" ++ strTake (md5Hexdigest "!!!") 8) :=
  ⟨by decide, claim_c6 "\x7b\x7d" ⟨"s1", "!!!"⟩ (by decide)⟩

/-! ### Claim C1 -/

/-- Claim C1 (code bug, evaluated at the failing input): the branch
`wC1Name` exists beforehand, `write_plan` force-deletes and re-creates it,
yet the returned mapping marks it `false` — the
`updated[branch_name] = False` at the end of the loop body (line 629)
unconditionally overwrites the `True` recorded for re-created branches
(line 627), contradicting the documented contract. -/
theorem claim_c1 :
    branchExists ⟨[wC1Name]⟩ wC1Name = true ∧
      writePlan (fun _ => true) wC1Tree ⟨[wC1Name]⟩ =
        .ok ([(wC1Name, false)], ⟨[wC1Name]⟩) := by
  decide

/-! ### Claim C5 -/

theorem create_delta_no_click (app : App) (cs : List Commit) (t : Option Delta)
    (m : String) : app.create_delta cs t ≠ .error (.clickException m) := by
  unfold App.create_delta
  by_cases h : app.anchor_commit = "first" <;> simp only [h, if_true, if_false]
  · cases cs <;> simp [Bind.bind, Except.bind, pure, Except.pure]
  · cases hc : cs.getLast? <;> simp [hc, Bind.bind, Except.bind, pure, Except.pure]

/-- Claim C5: in last-anchor reconstruction, for a local commit whose
derived name is an existing branch, `_infer_delta_last_commit` fails with
the state-corruption `ClickException` exactly when the derived name of
the branch's tip commit (the newest fetched candidate, i.e. the last of
the chronological candidate list) differs from the derived name of the
local commit; when the names agree, no such error is raised. -/
theorem claim_c5 (app : App) (commit : Commit) (i : Nat)
    (commits_by_message : Dict Commit) (tree : Dict Delta) (root : Commit)
    (tip : Commit)
    (htip : (app.branchCommits (app.get_commit_branch_name commit) (i + 1)).getLast? =
      some tip) :
    app.infer_delta_last_commit commit i commits_by_message tree root =
        .error (.clickException (invalidStateMsg app commit)) ↔
      app.get_commit_branch_name tip ≠ app.get_commit_branch_name commit := by
  simp only [App.infer_delta_last_commit, htip, Bind.bind, Except.bind]
  by_cases h : app.get_commit_branch_name tip ≠ app.get_commit_branch_name commit
  · simp [h]
  · simp only [h, if_false, iff_false]
    exact create_delta_no_click app _ _ _

theorem claim_c5_witness :
    (w5App.infer_delta_last_commit ⟨"1000", "a"⟩ 0 [] [] ⟨"rr", "root"⟩ =
        .error (.clickException (invalidStateMsg w5App ⟨"1000", "a"⟩)) ↔
      w5App.get_commit_branch_name ⟨"9000", "zz"⟩ ≠
        w5App.get_commit_branch_name ⟨"1000", "a"⟩) :=
  claim_c5 w5App ⟨"1000", "a"⟩ 0 [] [] ⟨"rr", "root"⟩ ⟨"9000", "zz"⟩ (by decide)

/-! ### Claim C3 -/

/-- Claim C3: in the DAG-construction loop, a commit-list whose
target-label is neither `None` nor in the current valid-target-label set
raises the fatal "invalid target" `PlanError` (first conjunct); and when
the target-label is valid, the loop resets the valid set to exactly the
new target-label whenever the target-label changes and then adds the
commit-list's own label, so siblings sharing a target stay valid while
labels from before an intervening different-target group are discarded
(second conjunct: the exact state-update equation). -/
theorem claim_c3 (app : App) (d : CommitList) (rest : List CommitList)
    (deltas : Dict Delta) (last_target_label : Option String)
    (valid_target_labels : List (Option String)) :
    (d.target_label ≠ none →
      valid_target_labels.contains d.target_label = false →
      buildTreeDGo app (d :: rest) deltas last_target_label valid_target_labels =
        .error (invalidTargetErr app d.label d.target_label)) ∧
    (valid_target_labels.contains d.target_label = true →
      buildTreeDGo app (d :: rest) deltas last_target_label valid_target_labels =
        match resolveTarget deltas d.target_label with
        | .error e => .error e
        | .ok target_branch =>
          match app.create_delta d.commits target_branch with
          | .error e => .error e
          | .ok delta =>
            buildTreeDGo app rest (dictInsert deltas d.label delta)
              (if d.target_label ≠ last_target_label then d.target_label
                else last_target_label)
              (setInsert
                (if d.target_label ≠ last_target_label then [d.target_label]
                  else valid_target_labels)
                (some d.label))) := by
  constructor
  · intro _ hnc
    simp [buildTreeDGo, hnc]
    intro hmem
    simp at hnc
    exact absurd hmem hnc
  · intro hc
    by_cases hl : d.target_label = last_target_label <;>
      simp [buildTreeDGo, hc, hl] <;>
      (intro hmem
       simp at hc
       first
       | exact absurd hc hmem
       | exact absurd (hl ▸ hc) hmem)

theorem claim_c3_witness :
    (buildTreeDGo wApp [⟨"1", some "9", [⟨"1000", "a"⟩]⟩] [] none [none] =
        .error (invalidTargetErr wApp "1" (some "9"))) ∧
    (buildTreeDGo wApp [⟨"0", none, [⟨"1000", "a"⟩]⟩] [] none [none] =
        match resolveTarget [] (none : Option String) with
        | .error e => .error e
        | .ok target_branch =>
          match wApp.create_delta [⟨"1000", "a"⟩] target_branch with
          | .error e => .error e
          | .ok delta =>
            buildTreeDGo wApp [] (dictInsert [] "0" delta)
              (if (none : Option String) ≠ none then none else none)
              (setInsert (if (none : Option String) ≠ none then [none] else [none])
                (some "0"))) :=
  ⟨(claim_c3 wApp ⟨"1", some "9", [⟨"1000", "a"⟩]⟩ [] [] none [none]).1
      (by decide) (by decide),
   (claim_c3 wApp ⟨"0", none, [⟨"1000", "a"⟩]⟩ [] [] none [none]).2 (by decide)⟩

/-! ### Claim C4 -/

theorem findConsume_eq_none (cursor : List Commit) (p : String)
    (h : ∀ c ∈ cursor, pyStartsWith c.sha p = false) :
    findConsume cursor p = none := by
  induction cursor with
  | nil => rfl
  | cons c rest ih =>
    simp only [findConsume, h c (by simp), Bool.false_eq_true, if_false]
    exact ih fun x hx => h x (by simp [hx])

theorem findConsume_eq_some (pre : List Commit) (c : Commit) (post : List Commit)
    (p : String)
    (hpre : ∀ x ∈ pre, pyStartsWith x.sha p = false)
    (hc : pyStartsWith c.sha p = true) :
    findConsume (pre ++ c :: post) p = some (c, post) := by
  induction pre with
  | nil => simp [findConsume, hc]
  | cons x rest ih =>
    simp only [List.cons_append, findConsume, hpre x (by simp), Bool.false_eq_true,
      if_false]
    exact ih fun y hy => hpre y (by simp [hy])

/-- Claim C4: plan-commit matching is a strict in-order cursor.  For a plan
line tokenizing to branch command `bc`: if no remaining (unconsumed) local
commit's sha starts with the line's sha-prefix — in particular whenever the
plan references commits out of chronological order — `_make_commit_lists`
raises the fatal "cannot match commits" `PlanError` (first conjunct); and
otherwise the matched commit is the first unconsumed commit whose sha
starts with the prefix, and all commits before it (in cursor order) are
consumed (second conjunct). -/
theorem claim_c4 (line : String) (rest : List String)
    (branches : List CommitList) (cursor : List Commit) (bc : BranchCommand)
    (hline : tokenizeLine line = .ok (some bc)) :
    ((∀ c ∈ cursor, pyStartsWith c.sha bc.commit_sha = false) →
      makeCommitListsGo (line :: rest) branches cursor =
        .error (.planError "cannot match commits in plan to local commits" [])) ∧
    (∀ pre c post, cursor = pre ++ c :: post →
      (∀ x ∈ pre, pyStartsWith x.sha bc.commit_sha = false) →
      pyStartsWith c.sha bc.commit_sha = true →
      findConsume cursor bc.commit_sha = some (c, post)) := by
  constructor
  · intro h
    simp only [makeCommitListsGo, hline, findConsume_eq_none cursor bc.commit_sha h]
  · intro pre c post hcur hpre hc
    rw [hcur]
    exact findConsume_eq_some pre c post bc.commit_sha hpre hc

theorem claim_c4_witness :
    (makeCommitListsGo ["b0 9999 x"] [] [⟨"1000", "a"⟩] =
        .error (.planError "cannot match commits in plan to local commits" [])) ∧
    findConsume [⟨"1000", "a"⟩] "1000" = some (⟨"1000", "a"⟩, []) :=
  ⟨(claim_c4 "b0 9999 x" [] [] [⟨"1000", "a"⟩] ⟨"0", none, "9999"⟩ (by decide)).1
      (by decide),
   (claim_c4 "b0 1000 x" [] [] [⟨"1000", "a"⟩] ⟨"0", none, "1000"⟩ (by decide)).2
      [] ⟨"1000", "a"⟩ [] (by decide) (by decide) (by decide)⟩

/-! ### Claim C10 -/

theorem pyGet_neg_one {α : Type} (l : List α) (h : l ≠ []) :
    pyGet? l ((0 : Int) - 1) = l.getLast? := by
  have h1 : ¬ (0 : Int) ≤ 0 - 1 := by omega
  have h2 : ((-(0 - 1) : Int)).toNat = 1 := by rfl
  have h3 : 1 ≤ l.length := by
    cases l with
    | nil => exact absurd rfl h
    | cons x xs => simp
  simp only [pyGet?, h1, if_false, h2, h3, if_true]
  rw [List.getLast?_eq_getElem?, List.get?_eq_getElem?]

theorem findFirstTarget_zero (treeVals : List Delta) (candidates : List Commit)
    (tip : Commit)
    (htip : pyGet? candidates ((0 : Int) - 1) = some tip)
    (hne : ∀ δ ∈ treeVals, δ.commits ≠ []) :
    findFirstTarget treeVals candidates 0 =
      .ok (treeVals.find? fun δ =>
        (δ.commits.getLast?).any fun lc => lc.message == tip.message) := by
  induction treeVals with
  | nil => rfl
  | cons d rest ih =>
    have hd : d.commits ≠ [] := hne d (by simp)
    obtain ⟨lc, hlc⟩ : ∃ lc, d.commits.getLast? = some lc := by
      cases hcl : d.commits.getLast? with
      | none => exact absurd (List.getLast?_eq_none_iff.mp hcl) hd
      | some lc => exact ⟨lc, rfl⟩
    have hih := ih fun δ hδ => hne δ (List.mem_cons_of_mem _ hδ)
    simp only [findFirstTarget, Nat.cast_zero, htip, hlc]
    by_cases hmsg : lc.message = tip.message
    · rw [if_pos hmsg, List.find?_cons_of_pos _ (by simp [hlc, hmsg])]
    · rw [if_neg hmsg, List.find?_cons_of_neg _ (by simp [hlc, hmsg]), hih]

/-- Claim C10: in first-anchor reconstruction, when the eponymous commit
sits at position 0 of the candidate list, the target lookup reads
`candidate_commits[start_index - 1] = candidate_commits[-1]`, which is
the NEWEST candidate (the branch tip): the index access never fails, and
the first previously-built Delta whose last commit's message equals the
tip's message is recorded as the target (none means rooted at
upstream). -/
theorem claim_c10 (app : App) (commit : Commit) (i : Nat)
    (commits_by_message : Dict Commit) (tree : Dict Delta) (root : Commit)
    (candidates : List Commit) (tip : Commit)
    (hcand : candidates =
      app.branchCommits (app.get_commit_branch_name commit)
        (commits_by_message.length - i + 1))
    (hidx : pyListIndex (candidates.map app.get_commit_branch_name)
      (app.get_commit_branch_name commit) = some 0)
    (htip : candidates.getLast? = some tip)
    (hne : ∀ δ ∈ dictValues tree, δ.commits ≠ []) :
    pyGet? candidates ((0 : Int) - 1) = some tip ∧
    findFirstTarget (dictValues tree) candidates 0 =
      .ok ((dictValues tree).find? fun δ =>
        (δ.commits.getLast?).any fun lc => lc.message == tip.message) ∧
    app.infer_delta_first_commit commit i commits_by_message tree root =
      app.create_delta (walkFirst commits_by_message candidates)
        ((dictValues tree).find? fun δ =>
          (δ.commits.getLast?).any fun lc => lc.message == tip.message) := by
  have hnil : candidates ≠ [] := by
    intro hc
    rw [hc] at htip
    simp at htip
  have hget : pyGet? candidates ((0 : Int) - 1) = some tip := by
    rw [pyGet_neg_one candidates hnil, htip]
  have hfft := findFirstTarget_zero (dictValues tree) candidates tip hget hne
  refine ⟨hget, hfft, ?_⟩
  simp only [App.infer_delta_first_commit, ← hcand, hidx, hfft, Bind.bind, Except.bind,
    List.drop_zero]

theorem claim_c10_witness :
    pyGet? [(⟨"1000", "a"⟩ : Commit)] ((0 : Int) - 1) = some ⟨"1000", "a"⟩ ∧
    findFirstTarget (dictValues [("x", Delta.root [⟨"5000", "a"⟩] "x" "up")])
        [⟨"1000", "a"⟩] 0 =
      .ok ((dictValues [("x", Delta.root [⟨"5000", "a"⟩] "x" "up")]).find? fun δ =>
        (δ.commits.getLast?).any fun lc =>
          lc.message == Commit.message ⟨"1000", "a"⟩) ∧
    w10App.infer_delta_first_commit ⟨"1000", "a"⟩ 0 [("a", ⟨"1000", "a"⟩)]
        [("x", Delta.root [⟨"5000", "a"⟩] "x" "up")] ⟨"rr", "root"⟩ =
      w10App.create_delta (walkFirst [("a", ⟨"1000", "a"⟩)] [⟨"1000", "a"⟩])
        ((dictValues [("x", Delta.root [⟨"5000", "a"⟩] "x" "up")]).find? fun δ =>
          (δ.commits.getLast?).any fun lc =>
            lc.message == Commit.message ⟨"1000", "a"⟩) :=
  claim_c10 w10App ⟨"1000", "a"⟩ 0 [("a", ⟨"1000", "a"⟩)]
    [("x", Delta.root [⟨"5000", "a"⟩] "x" "up")] ⟨"rr", "root"⟩
    [⟨"1000", "a"⟩] ⟨"1000", "a"⟩ (by decide) (by decide) (by decide) (by decide)

/-! ### Dictionary lemmas -/

theorem hasDuplicates_eq_false {l : List String} (h : l.Nodup) :
    hasDuplicates l = false := by
  induction l with
  | nil => rfl
  | cons x rest ih =>
    rw [List.nodup_cons] at h
    simp [hasDuplicates, ih h.2, h.1]

theorem get_local_commits_ok (app : App)
    (hup : app.upstreamExists = true) (hloc : app.localExists = true)
    (hmsg : (app.localCommits.map (·.message)).Nodup) :
    app.get_local_commits = .ok app.localCommits := by
  simp [App.get_local_commits, hup, hloc, hasDuplicates_eq_false hmsg]

theorem dictInsert_of_not_mem {α : Type} {d : Dict α} {k : String} (v : α)
    (h : dictMem d k = false) : dictInsert d k v = d ++ [(k, v)] := by
  simp [dictInsert, h]

theorem dictMem_append {α : Type} (d1 d2 : Dict α) (k : String) :
    dictMem (d1 ++ d2) k = (dictMem d1 k || dictMem d2 k) := by
  simp [dictMem, List.any_append]

theorem dictMem_singleton {α : Type} (k' k : String) (v : α) :
    dictMem [(k', v)] k = (k' == k) := by
  simp [dictMem]

/-! ### Claim C7 -/

theorem create_delta_single (app : App) (c : Commit) (target : Option Delta) :
    app.create_delta [c] target = .ok (singleDelta app c target) := by
  unfold App.create_delta singleDelta
  by_cases h : app.anchor_commit = "first" <;>
    simp [h, Bind.bind, Except.bind, pure, Except.pure]

theorem singleDelta_branch_name (app : App) (c : Commit) (target : Option Delta) :
    (singleDelta app c target).branch_name = app.get_commit_branch_name c := by
  unfold singleDelta
  rw [Delta.make_branch_name]

theorem singleDelta_commits (app : App) (c : Commit) (target : Option Delta) :
    (singleDelta app c target).commits = [c] := by
  unfold singleDelta
  rw [Delta.make_commits]

theorem singleDelta_target (app : App) (c : Commit) (target : Option Delta) :
    (singleDelta app c target).target = target := by
  unfold singleDelta
  rw [Delta.make_target]

theorem buildTreeGo_flat (app : App) (cs : List Commit) :
    ∀ (tree : Dict Delta),
    (∀ c ∈ cs, dictMem tree (app.get_commit_branch_name c) = false) →
    (cs.map app.get_commit_branch_name).Nodup →
    buildTreeGo app false cs none tree = .ok (tree ++ flatTree app cs) := by
  induction cs with
  | nil =>
    intro tree _ _
    simp [buildTreeGo, flatTree]
  | cons c rest ih =>
    intro tree hmem hnd
    rw [List.map_cons, List.nodup_cons] at hnd
    rw [buildTreeGo]
    rw [create_delta_single]
    simp only [Bind.bind, Except.bind, if_false, Bool.false_eq_true, ite_false]
    rw [singleDelta_branch_name]
    rw [dictInsert_of_not_mem _ (hmem c (by simp))]
    rw [ih (tree ++ [(app.get_commit_branch_name c, singleDelta app c none)])
      ?_ hnd.2]
    · simp [flatTree]
    · intro c' hc'
      rw [dictMem_append, hmem c' (by simp [hc']), dictMem_singleton]
      have : app.get_commit_branch_name c ≠ app.get_commit_branch_name c' := by
        intro he
        exact hnd.1 (he ▸ List.mem_map_of_mem _ hc')
      simp [this]

theorem buildTreeGo_stack (app : App) (cs : List Commit) :
    ∀ (tree : Dict Delta) (target : Option Delta),
    (∀ c ∈ cs, dictMem tree (app.get_commit_branch_name c) = false) →
    (cs.map app.get_commit_branch_name).Nodup →
    buildTreeGo app true cs target tree =
      .ok (tree ++ (stackDeltas app cs target).map fun d => (d.branch_name, d)) := by
  induction cs with
  | nil =>
    intro tree target _ _
    simp [buildTreeGo, stackDeltas]
  | cons c rest ih =>
    intro tree target hmem hnd
    rw [List.map_cons, List.nodup_cons] at hnd
    rw [buildTreeGo]
    rw [create_delta_single]
    simp only [Bind.bind, Except.bind, if_true]
    rw [dictInsert_of_not_mem _
      (by rw [singleDelta_branch_name]; exact hmem c (by simp))]
    rw [ih (tree ++ [((singleDelta app c target).branch_name, singleDelta app c target)])
      (some (singleDelta app c target)) ?_ hnd.2]
    · simp [stackDeltas]
    · intro c' hc'
      rw [dictMem_append, hmem c' (by simp [hc']), dictMem_singleton,
        singleDelta_branch_name]
      have : app.get_commit_branch_name c ≠ app.get_commit_branch_name c' := by
        intro he
        exact hnd.1 (he ▸ List.mem_map_of_mem _ hc')
      simp [this]

theorem stackDeltas_length (app : App) (cs : List Commit) :
    ∀ target, (stackDeltas app cs target).length = cs.length := by
  induction cs with
  | nil => intro target; rfl
  | cons c rest ih => intro target; simp [stackDeltas, ih]

/-- Claim C7: for every list of N local commits (with the spec's ambient
invariants: distinct messages, hence distinct derived branch names),
`build_tree stack=False` yields the tree of N independent single-commit
Deltas all targeting null/upstream, `build_tree stack=True` yields the
single linear chain of N single-commit Deltas in which each Delta targets
the Delta of the immediately preceding commit and the first targets
null/upstream (see `stackDeltas`), both trees have exactly N entries, an
empty commit list yields an empty tree, and no error is raised. -/
theorem claim_c7 (app : App)
    (hup : app.upstreamExists = true) (hloc : app.localExists = true)
    (hmsg : (app.localCommits.map (·.message)).Nodup)
    (hname : (app.localCommits.map app.get_commit_branch_name).Nodup) :
    app.build_tree false = .ok (flatTree app app.localCommits) ∧
    app.build_tree true = .ok (stackTree app app.localCommits) ∧
    (flatTree app app.localCommits).length = app.localCommits.length ∧
    (stackTree app app.localCommits).length = app.localCommits.length ∧
    (app.localCommits = [] →
      app.build_tree true = .ok [] ∧ app.build_tree false = .ok []) := by
  have hflat : app.build_tree false = .ok (flatTree app app.localCommits) := by
    unfold App.build_tree
    rw [get_local_commits_ok app hup hloc hmsg]
    simp only [Bind.bind, Except.bind]
    rw [buildTreeGo_flat app app.localCommits [] (by intro c _; rfl) hname]
    rfl
  have hstack : app.build_tree true = .ok (stackTree app app.localCommits) := by
    unfold App.build_tree
    rw [get_local_commits_ok app hup hloc hmsg]
    simp only [Bind.bind, Except.bind]
    rw [buildTreeGo_stack app app.localCommits [] none (by intro c _; rfl) hname]
    rfl
  refine ⟨hflat, hstack, by simp [flatTree], ?_, ?_⟩
  · simp [stackTree, stackDeltas_length]
  · intro hnil
    rw [hflat, hstack, hnil]
    exact ⟨rfl, rfl⟩

theorem claim_c7_witness :
    wApp.build_tree false = .ok (flatTree wApp wApp.localCommits) ∧
    wApp.build_tree true = .ok (stackTree wApp wApp.localCommits) ∧
    (flatTree wApp wApp.localCommits).length = wApp.localCommits.length ∧
    (stackTree wApp wApp.localCommits).length = wApp.localCommits.length ∧
    (wApp.localCommits = [] →
      wApp.build_tree true = .ok [] ∧ wApp.build_tree false = .ok []) :=
  claim_c7 wApp (by decide) (by decide) (by decide) (by decide)

/-! ### More dictionary lemmas (towards Claims C9 and C2) -/

theorem findMap_self {α : Type} (k : String) (v : α) :
    ∀ ds : Dict α, dictMem ds k = true →
      List.find? (fun p => p.1 == k) (ds.map fun p => if p.1 == k then (k, v) else p) =
        some (k, v) := by
  intro ds
  induction ds with
  | nil => intro h; simp [dictMem] at h
  | cons p rest ih =>
    intro h
    simp only [List.map_cons, List.find?]
    by_cases hp : (p.1 == k) = true
    · rw [if_pos hp]
      simp
    · rw [if_neg hp]
      simp only [hp]
      refine ih ?_
      simp only [dictMem, List.any_cons, Bool.or_eq_true] at h
      rcases h with h1 | h2
      · exact absurd h1 hp
      · exact h2

theorem dictGet_insert_self {α : Type} (ds : Dict α) (k : String) (v : α) :
    dictGet? (dictInsert ds k v) k = some v := by
  unfold dictInsert
  by_cases hm : dictMem ds k
  · rw [if_pos hm]
    unfold dictGet?
    rw [findMap_self k v ds hm]
    rfl
  · rw [if_neg hm]
    unfold dictGet?
    have hnone : List.find? (fun p => p.1 == k) ds = none := by
      rw [List.find?_eq_none]
      intro p hp hbeq
      exact hm (by simp only [dictMem, List.any_eq_true]; exact ⟨p, hp, hbeq⟩)
    rw [List.find?_append, hnone]
    simp [List.find?]

theorem findMap_ne {α : Type} (key k : String) (val : α) (hne : key ≠ k) :
    ∀ ds : Dict α,
      List.find? (fun p => p.1 == k)
          (ds.map fun p => if p.1 == key then (key, val) else p) =
        List.find? (fun p => p.1 == k) ds := by
  intro ds
  induction ds with
  | nil => rfl
  | cons p rest ih =>
    simp only [List.map_cons, List.find?]
    by_cases hp : (p.1 == key) = true
    · rw [if_pos hp]
      have hpk : (p.1 == k) = false := by
        rw [beq_eq_false_iff_ne, beq_iff_eq.mp hp]
        exact hne
      have hkk : (key == k) = false := beq_eq_false_iff_ne.mpr hne
      simp only [hkk, hpk]
      exact ih
    · rw [if_neg hp]
      cases hpk : (p.1 == k)
      · simp only [hpk]
        exact ih
      · simp only [hpk]

theorem dictGet_insert_ne {α : Type} (ds : Dict α) (key k : String) (v : α)
    (hne : key ≠ k) : dictGet? (dictInsert ds key v) k = dictGet? ds k := by
  unfold dictInsert
  by_cases hm : dictMem ds key
  · rw [if_pos hm]
    unfold dictGet?
    rw [findMap_ne key k v hne ds]
  · rw [if_neg hm]
    unfold dictGet?
    rw [List.find?_append]
    have hsing : List.find? (fun p => p.1 == k) [(key, v)] = none := by
      have hb : (key == k) = false := beq_eq_false_iff_ne.mpr hne
      simp [List.find?, hb]
    rw [hsing]
    cases hf : List.find? (fun p => p.1 == k) ds <;> simp

theorem dictInsert_pair_mem {α : Type} {ds : Dict α} {key k : String} {val v : α}
    (h : (k, v) ∈ dictInsert ds key val) : (k, v) ∈ ds ∨ (k = key ∧ v = val) := by
  unfold dictInsert at h
  by_cases hm : dictMem ds key
  · rw [if_pos hm] at h
    obtain ⟨p, hp, hfp⟩ := List.mem_map.mp h
    by_cases hpk : (p.1 == key) = true
    · rw [if_pos hpk] at hfp
      right
      exact ⟨congrArg Prod.fst hfp.symm, congrArg Prod.snd hfp.symm⟩
    · rw [if_neg hpk] at hfp
      left
      exact hfp ▸ hp
  · rw [if_neg hm] at h
    rcases List.mem_append.mp h with h1 | h2
    · exact .inl h1
    · right
      have h3 := List.mem_singleton.mp h2
      exact ⟨congrArg Prod.fst h3, congrArg Prod.snd h3⟩

theorem dictInsert_keys {α : Type} (ds : Dict α) (k : String) (v : α)
    (hm : dictMem ds k = true) :
    (dictInsert ds k v).map (·.1) = ds.map (·.1) := by
  unfold dictInsert
  rw [if_pos hm, List.map_map]
  refine List.map_congr_left fun p _ => ?_
  by_cases hpk : (p.1 == k) = true
  · simp only [Function.comp_apply, if_pos hpk]
    exact (beq_iff_eq.mp hpk).symm
  · simp only [Function.comp_apply, if_neg hpk]

theorem dictInsert_keys_nodup {α : Type} (ds : Dict α) (k : String) (v : α)
    (h : (ds.map (·.1)).Nodup) : ((dictInsert ds k v).map (·.1)).Nodup := by
  by_cases hm : dictMem ds k
  · rw [dictInsert_keys ds k v hm]
    exact h
  · rw [dictInsert_of_not_mem v (by simpa using hm), List.map_append]
    simp only [List.map_cons, List.map_nil]
    rw [List.nodup_append]
    refine ⟨h, List.nodup_singleton _, ?_⟩
    intro x hx
    simp only [List.mem_singleton]
    intro hxk
    subst hxk
    apply hm
    simp only [dictMem, List.any_eq_true]
    obtain ⟨p, hp, hpk⟩ := List.mem_map.mp hx
    exact ⟨p, hp, by simp [hpk]⟩

theorem dictGet_of_pair_mem_nodup {α : Type} {ds : Dict α} {k : String} {v : α}
    (hnd : (ds.map (·.1)).Nodup) (hm : (k, v) ∈ ds) : dictGet? ds k = some v := by
  induction ds with
  | nil => simp at hm
  | cons p rest ih =>
    rw [List.map_cons, List.nodup_cons] at hnd
    rcases List.mem_cons.mp hm with h1 | h2
    · subst h1
      simp [dictGet?, List.find?]
    · have hp : (p.1 == k) = false := by
        have hmem : k ∈ rest.map (·.1) := List.mem_map.mpr ⟨(k, v), h2, rfl⟩
        by_contra hb
        rw [Bool.not_eq_false, beq_iff_eq] at hb
        exact hnd.1 (hb ▸ hmem)
      simp only [dictGet?, List.find?, hp]
      exact ih hnd.2 h2

theorem dictValues_insert_subset {α : Type} {ds : Dict α} {k : String} {v x : α}
    (h : x ∈ dictValues (dictInsert ds k v)) : x ∈ dictValues ds ∨ x = v := by
  unfold dictValues at h
  obtain ⟨p, hp, hpx⟩ := List.mem_map.mp h
  rcases dictInsert_pair_mem hp with h1 | ⟨_, h2⟩
  · exact .inl (List.mem_map.mpr ⟨p, h1, hpx⟩)
  · exact .inr (hpx ▸ h2)

theorem rekey_values_subset (ds : Dict Delta) :
    ∀ x ∈ dictValues (rekeyByBranchName ds), x ∈ dictValues ds := by
  unfold rekeyByBranchName
  suffices h : ∀ (l : List (String × Delta)) (acc : Dict Delta),
      (∀ y ∈ dictValues acc, y ∈ dictValues ds) →
      (∀ p ∈ l, p.2 ∈ dictValues ds) →
      ∀ x ∈ dictValues (l.foldl (fun a p => dictInsert a p.2.branch_name p.2) acc),
        x ∈ dictValues ds by
    intro x hx
    exact h ds [] (by simp [dictValues]) (fun p hp => List.mem_map.mpr ⟨p, hp, rfl⟩) x hx
  intro l
  induction l with
  | nil => intro acc hacc _ x hx; exact hacc x hx
  | cons p rest ih =>
    intro acc hacc hl x hx
    refine ih (dictInsert acc p.2.branch_name p.2) ?_ (fun q hq => hl q (by simp [hq])) x hx
    intro y hy
    rcases dictValues_insert_subset hy with h1 | h2
    · exact hacc y h1
    · exact h2 ▸ hl p (by simp)

/-! ### `buildTreeDGo` structural lemmas (towards Claims C9 and C2) -/

theorem create_delta_ok_commits {app : App} {cs : List Commit} {t : Option Delta}
    {δ : Delta} (h : app.create_delta cs t = .ok δ) : δ.commits = cs := by
  unfold App.create_delta at h
  by_cases ha : app.anchor_commit = "first" <;>
    simp only [ha, if_true, if_false] at h
  · cases hc : cs.head? <;>
      simp only [hc, Bind.bind, Except.bind, pure, Except.pure] at h
    · exact absurd h (by simp)
    · rw [Except.ok.injEq] at h
      subst h
      rw [Delta.make_commits]
  · cases hc : cs.getLast? <;>
      simp only [hc, Bind.bind, Except.bind, pure, Except.pure] at h
    · exact absurd h (by simp)
    · rw [Except.ok.injEq] at h
      subst h
      rw [Delta.make_commits]

/-- The unconditional step equation of the `_build_tree` loop. -/
theorem buildTreeDGo_cons_eq (app : App) (d : CommitList) (rest : List CommitList)
    (deltas : Dict Delta) (last_target_label : Option String)
    (valid_target_labels : List (Option String)) :
    buildTreeDGo app (d :: rest) deltas last_target_label valid_target_labels =
      if valid_target_labels.contains d.target_label = true then
        match resolveTarget deltas d.target_label with
        | .error e => .error e
        | .ok target_branch =>
          match app.create_delta d.commits target_branch with
          | .error e => .error e
          | .ok delta =>
            buildTreeDGo app rest (dictInsert deltas d.label delta)
              (if d.target_label ≠ last_target_label then d.target_label
                else last_target_label)
              (setInsert
                (if d.target_label ≠ last_target_label then [d.target_label]
                  else valid_target_labels)
                (some d.label))
      else .error (invalidTargetErr app d.label d.target_label) := by
  by_cases hc : valid_target_labels.contains d.target_label = true
  · rw [if_pos hc]
    by_cases hl : d.target_label = last_target_label <;>
      simp [buildTreeDGo, hc, hl] <;>
      (intro hmem
       simp at hc
       first
       | exact absurd hc hmem
       | exact absurd (hl ▸ hc) hmem)
  · rw [if_neg hc]
    rw [Bool.not_eq_true] at hc
    simp [buildTreeDGo, hc]
    intro hmem
    simp at hc
    exact absurd hmem hc

/-- Decomposition of a successful step. -/
theorem buildTreeDGo_cons_ok {app : App} {d : CommitList} {rest : List CommitList}
    {deltas : Dict Delta} {last_target_label : Option String}
    {valid_target_labels : List (Option String)} {final : Dict Delta}
    (h : buildTreeDGo app (d :: rest) deltas last_target_label valid_target_labels =
      .ok final) :
    ∃ target_branch delta,
      valid_target_labels.contains d.target_label = true ∧
      resolveTarget deltas d.target_label = .ok target_branch ∧
      app.create_delta d.commits target_branch = .ok delta ∧
      delta.commits = d.commits ∧
      buildTreeDGo app rest (dictInsert deltas d.label delta)
        (if d.target_label ≠ last_target_label then d.target_label
          else last_target_label)
        (setInsert
          (if d.target_label ≠ last_target_label then [d.target_label]
            else valid_target_labels)
          (some d.label)) = .ok final := by
  rw [buildTreeDGo_cons_eq] at h
  by_cases hc : valid_target_labels.contains d.target_label = true
  · rw [if_pos hc] at h
    cases hrt : resolveTarget deltas d.target_label with
    | error e =>
      simp only [hrt] at h
      exact absurd h (by simp)
    | ok target_branch =>
      simp only [hrt] at h
      cases hcd : app.create_delta d.commits target_branch with
      | error e =>
        simp only [hcd] at h
        exact absurd h (by simp)
      | ok delta =>
        simp only [hcd] at h
        exact ⟨target_branch, delta, hc, rfl, hcd, create_delta_ok_commits hcd, h⟩
  · rw [if_neg hc] at h
    cases h

theorem buildTreeDGo_nil (app : App) (deltas : Dict Delta)
    (last_target_label : Option String) (valid_target_labels : List (Option String)) :
    buildTreeDGo app [] deltas last_target_label valid_target_labels = .ok deltas :=
  rfl

/-- Every entry of a successful `_build_tree` run's delta dict either was
already present or was created from some processed commit-list carrying
its label and its commits. -/
theorem buildTreeDGo_values (app : App) :
    ∀ (cls : List CommitList) (deltas : Dict Delta) (last_target_label : Option String)
      (valid_target_labels : List (Option String)) (final : Dict Delta),
    buildTreeDGo app cls deltas last_target_label valid_target_labels = .ok final →
    ∀ k v, (k, v) ∈ final →
      (k, v) ∈ deltas ∨ ∃ d ∈ cls, d.label = k ∧ v.commits = d.commits := by
  intro cls
  induction cls with
  | nil =>
    intro deltas last valid final h k v hm
    rw [buildTreeDGo_nil] at h
    cases h
    exact .inl hm
  | cons d rest ih =>
    intro deltas last valid final h k v hm
    obtain ⟨tb, delta, _, _, _, hcomm, hrec⟩ := buildTreeDGo_cons_ok h
    rcases ih _ _ _ _ hrec k v hm with hin | ⟨d', hd', hl, hc⟩
    · rcases dictInsert_pair_mem hin with hin' | ⟨hk, hv⟩
      · exact .inl hin'
      · exact .inr ⟨d, by simp, hk.symm, by rw [hv, hcomm]⟩
    · exact .inr ⟨d', by simp [hd'], hl, hc⟩

/-- Processing lists whose labels all differ from `ℓ` leaves the entry at
`ℓ` unchanged. -/
theorem buildTreeDGo_get_preserve (app : App) (ℓ : String) :
    ∀ (post : List CommitList) (deltas : Dict Delta) (last_target_label : Option String)
      (valid_target_labels : List (Option String)) (final : Dict Delta),
    buildTreeDGo app post deltas last_target_label valid_target_labels = .ok final →
    (∀ d ∈ post, d.label ≠ ℓ) →
    dictGet? final ℓ = dictGet? deltas ℓ := by
  intro post
  induction post with
  | nil =>
    intro deltas last valid final h _
    rw [buildTreeDGo_nil] at h
    cases h
    rfl
  | cons d rest ih =>
    intro deltas last valid final h hlab
    obtain ⟨tb, delta, _, _, _, _, hrec⟩ := buildTreeDGo_cons_ok h
    rw [ih _ _ _ _ hrec fun d' hd' => hlab d' (by simp [hd'])]
    exact dictGet_insert_ne deltas d.label ℓ delta (hlab d (by simp))

theorem buildTreeDGo_keys_nodup (app : App) :
    ∀ (cls : List CommitList) (deltas : Dict Delta) (last_target_label : Option String)
      (valid_target_labels : List (Option String)) (final : Dict Delta),
    buildTreeDGo app cls deltas last_target_label valid_target_labels = .ok final →
    (deltas.map (·.1)).Nodup → (final.map (·.1)).Nodup := by
  intro cls
  induction cls with
  | nil =>
    intro deltas last valid final h hnd
    rw [buildTreeDGo_nil] at h
    cases h
    exact hnd
  | cons d rest ih =>
    intro deltas last valid final h hnd
    obtain ⟨tb, delta, _, _, _, _, hrec⟩ := buildTreeDGo_cons_ok h
    exact ih _ _ _ _ hrec (dictInsert_keys_nodup deltas d.label delta hnd)

/-- A successful run on `l1 ++ l2` runs `l1` to success first. -/
theorem buildTreeDGo_append (app : App) :
    ∀ (l1 l2 : List CommitList) (deltas : Dict Delta) (last_target_label : Option String)
      (valid_target_labels : List (Option String)) (final : Dict Delta),
    buildTreeDGo app (l1 ++ l2) deltas last_target_label valid_target_labels =
      .ok final →
    ∃ deltas' last' valid',
      buildTreeDGo app l1 deltas last_target_label valid_target_labels = .ok deltas' ∧
      buildTreeDGo app l2 deltas' last' valid' = .ok final := by
  intro l1
  induction l1 with
  | nil =>
    intro l2 deltas last valid final h
    exact ⟨deltas, last, valid, rfl, h⟩
  | cons d rest ih =>
    intro l2 deltas last valid final h
    rw [List.cons_append] at h
    obtain ⟨tb, delta, hc, hrt, hcd, _, hrec⟩ := buildTreeDGo_cons_ok h
    obtain ⟨deltas', last', valid', h1, h2⟩ := ih _ _ _ _ _ hrec
    refine ⟨deltas', last', valid', ?_, h2⟩
    rw [buildTreeDGo_cons_eq, if_pos hc]
    simp only [hrt, hcd]
    exact h1

/-! ### Claim C9 -/

/-- Claim C9: when the same label heads two groups (commit-lists) in a
plan whose targets are otherwise valid — the tokenizer only ever produces
non-adjacent groups with equal labels, since adjacent equal-label lines
extend one group — DAG construction raises no error: the later group's
Delta silently overwrites the earlier one under that label, the returned
branch-name-keyed tree holds only Deltas of surviving label entries, and
the earlier group's commits (owned by no other group, as the commit
cursor guarantees) appear in no Delta of the result. -/
theorem claim_c9 (app : App) (pre post : List CommitList) (d1 d2 : CommitList)
    (deltasF : Dict Delta)
    (hgo : buildTreeDGo app (pre ++ d2 :: post) [] none [none] = .ok deltasF)
    (hd1 : d1 ∈ pre) (hlab : d1.label = d2.label)
    (hpost : ∀ d ∈ post, d.label ≠ d2.label)
    (hdisj : ∀ d ∈ pre ++ d2 :: post, d ≠ d1 → ∀ c ∈ d1.commits, c ∉ d.commits)
    (hd1d2 : d1 ≠ d2) :
    app.build_tree_from_lists (pre ++ d2 :: post) = .ok (rekeyByBranchName deltasF) ∧
    (∃ δ, dictGet? deltasF d2.label = some δ ∧ δ.commits = d2.commits) ∧
    (∀ c ∈ d1.commits, ∀ δ ∈ dictValues (rekeyByBranchName deltasF),
      c ∉ δ.commits) := by
  obtain ⟨deltasP, last', valid', h1, h2⟩ := buildTreeDGo_append app _ _ _ _ _ _ hgo
  obtain ⟨tb, delta2, hc, hrt, hcd, hcomm2, hrec⟩ := buildTreeDGo_cons_ok h2
  have hget : dictGet? deltasF d2.label = some delta2 := by
    rw [buildTreeDGo_get_preserve app d2.label post _ _ _ _ hrec hpost]
    exact dictGet_insert_self deltasP d2.label delta2
  have hnodup : (deltasF.map (·.1)).Nodup :=
    buildTreeDGo_keys_nodup app _ _ _ _ _ hgo (by simp)
  refine ⟨?_, ⟨delta2, hget, hcomm2⟩, ?_⟩
  · unfold App.build_tree_from_lists
    rw [hgo]
    rfl
  · intro c hcmem δ hδ
    have hδF : δ ∈ dictValues deltasF := rekey_values_subset deltasF δ hδ
    obtain ⟨p, hp, hpδ⟩ := List.mem_map.mp hδF
    have hpair : (p.1, δ) ∈ deltasF := by
      rw [show (p.1, δ) = p from Prod.ext rfl hpδ.symm]
      exact hp
    by_cases hk : p.1 = d2.label
    · have := dictGet_of_pair_mem_nodup hnodup hpair
      rw [hk, hget] at this
      have hδ2 : δ = delta2 := by
        injection this.symm
      intro hcδ
      have hc2 : c ∈ d2.commits := by
        rw [← hcomm2, ← hδ2]
        exact hcδ
      exact hdisj d2 (by simp) (fun he => hd1d2 he.symm) c hcmem hc2
    · rcases buildTreeDGo_values app _ _ _ _ _ hgo p.1 δ hpair with hemp | ⟨d, hd, hdl, hdc⟩
      · simp at hemp
      · have hdne : d ≠ d1 := by
          intro he
          apply hk
          rw [← hdl, he, hlab]
        intro hcδ
        have : c ∈ d.commits := by
          rw [← hdc]
          exact hcδ
        exact hdisj d hd hdne c hcmem this

theorem claim_c9_witness :
    wApp.build_tree_from_lists
        [⟨"0", none, [⟨"1000", "a"⟩]⟩, ⟨"1", none, [⟨"2000", "b"⟩]⟩,
         ⟨"0", none, [⟨"3000", "c"⟩]⟩] =
      .ok (rekeyByBranchName
        [("0", singleDelta wApp ⟨"3000", "c"⟩ none),
         ("1", singleDelta wApp ⟨"2000", "b"⟩ none)]) ∧
    (∃ δ, dictGet? [("0", singleDelta wApp ⟨"3000", "c"⟩ none),
         ("1", singleDelta wApp ⟨"2000", "b"⟩ none)]
        (CommitList.label ⟨"0", none, [⟨"3000", "c"⟩]⟩) = some δ ∧
      δ.commits = CommitList.commits ⟨"0", none, [⟨"3000", "c"⟩]⟩) ∧
    (∀ c ∈ CommitList.commits ⟨"0", none, [⟨"1000", "a"⟩]⟩,
      ∀ δ ∈ dictValues (rekeyByBranchName
        [("0", singleDelta wApp ⟨"3000", "c"⟩ none),
         ("1", singleDelta wApp ⟨"2000", "b"⟩ none)]),
      c ∉ δ.commits) :=
  claim_c9 wApp
    [⟨"0", none, [⟨"1000", "a"⟩]⟩, ⟨"1", none, [⟨"2000", "b"⟩]⟩]
    [] ⟨"0", none, [⟨"1000", "a"⟩]⟩ ⟨"0", none, [⟨"3000", "c"⟩]⟩
    [("0", singleDelta wApp ⟨"3000", "c"⟩ none),
     ("1", singleDelta wApp ⟨"2000", "b"⟩ none)]
    (by decide) (by decide) (by decide) (by decide) (by decide) (by decide)

/-! ### String splitting lemmas (towards Claim C2) -/

theorem splitCharAux_no_sep (sep : Char) :
    ∀ (l acc : List Char), (∀ c ∈ l, c ≠ sep) →
      splitCharAux sep l acc = [String.mk (acc.reverse ++ l)] := by
  intro l
  induction l with
  | nil => intro acc _; simp [splitCharAux]
  | cons c rest ih =>
    intro acc h
    rw [splitCharAux, if_neg (h c (by simp))]
    rw [ih (c :: acc) fun x hx => h x (by simp [hx])]
    simp

theorem splitCharAux_break (sep : Char) :
    ∀ (l1 : List Char) (acc l2 : List Char), (∀ c ∈ l1, c ≠ sep) →
      splitCharAux sep (l1 ++ sep :: l2) acc =
        String.mk (acc.reverse ++ l1) :: splitCharAux sep l2 [] := by
  intro l1
  induction l1 with
  | nil =>
    intro acc l2 _
    rw [List.nil_append, splitCharAux, if_pos rfl]
    simp
  | cons c rest ih =>
    intro acc l2 h
    rw [List.cons_append, splitCharAux, if_neg (h c (by simp))]
    rw [ih (c :: acc) l2 fun x hx => h x (by simp [hx])]
    simp

theorem splitChar_joinSep (sep : Char) (sepS : String) (hs : sepS.data = [sep]) :
    ∀ lines : List String, lines ≠ [] →
      (∀ l ∈ lines, ∀ c ∈ l.data, c ≠ sep) →
      splitChar sep (joinSep sepS lines) = lines := by
  intro lines
  induction lines with
  | nil => intro h _; exact absurd rfl h
  | cons x rest ih =>
    intro _ h
    cases rest with
    | nil =>
      rw [joinSep]
      unfold splitChar
      rw [splitCharAux_no_sep sep x.data [] (h x (by simp))]
      simp
    | cons y rest' =>
      rw [joinSep]
      unfold splitChar
      have hdata : (x ++ sepS ++ joinSep sepS (y :: rest')).data =
          x.data ++ sep :: (joinSep sepS (y :: rest')).data := by
        rw [String.data_append, String.data_append, hs]
        simp
      rw [hdata, splitCharAux_break sep x.data [] _ (h x (by simp))]
      have := ih (by simp) fun l hl => h l (by simp [hl])
      unfold splitChar at this
      rw [this]
      simp

/-! ### Run-splitting lemmas for `pySplit` (towards Claim C2) -/

theorem runsOf_cons_break (p : Char → Bool) (b : Char) (l : List Char)
    (hb : p b = false) : runsOf p (b :: l) = runsOf p l := by
  cases l with
  | nil => simp [runsOf, hb]
  | cons c2 rest => simp [runsOf, hb]

theorem runsOf_all (p : Char → Bool) :
    ∀ l : List Char, l ≠ [] → (∀ c ∈ l, p c = true) → runsOf p l = [l] := by
  intro l
  induction l with
  | nil => intro h _; exact absurd rfl h
  | cons c rest ih =>
    intro _ h
    cases rest with
    | nil => simp [runsOf, h c (by simp)]
    | cons c2 rest' =>
      rw [runsOf]
      rw [ih (by simp) fun x hx => h x (by simp [hx])]
      simp [h c (by simp), h c2 (by simp)]

theorem runsOf_run_break (p : Char → Bool) :
    ∀ (l1 : List Char) (b : Char) (l2 : List Char), l1 ≠ [] →
      (∀ c ∈ l1, p c = true) → p b = false →
      runsOf p (l1 ++ b :: l2) = l1 :: runsOf p l2 := by
  intro l1
  induction l1 with
  | nil => intro b l2 h _ _; exact absurd rfl h
  | cons c rest ih =>
    intro b l2 _ h hb
    cases rest with
    | nil =>
      simp only [List.cons_append, List.nil_append]
      rw [runsOf]
      rw [runsOf_cons_break p b l2 hb]
      simp [h c (by simp), hb]
    | cons c2 rest' =>
      have hrec := ih b l2 (by simp) (fun x hx => h x (by simp [hx])) hb
      simp only [List.cons_append] at hrec ⊢
      rw [runsOf, hrec]
      simp [h c (by simp), h c2 (by simp)]

/-! ### Character-class facts for rendered plan lines -/

theorem natStrCore_mem_digits (n : Nat) :
    ∀ c ∈ natStrCore n, c ∈ ("0123456789".data) := by
  induction n using Nat.strong_induction_on with
  | _ n ih =>
    rw [natStrCore]
    by_cases h : n < 10
    · simp only [h, dite_true, List.mem_singleton]
      rintro c rfl
      unfold digitChar10
      interval_cases n <;> decide
    · simp only [h, dite_false, List.mem_append, List.mem_singleton]
      rintro c (hc | rfl)
      · exact ih (n / 10) (Nat.div_lt_self (by omega) (by omega)) c hc
      · unfold digitChar10
        have hm : n % 10 < 10 := Nat.mod_lt n (by omega)
        interval_cases hq : n % 10 <;> decide

theorem digit_char_facts :
    ∀ c ∈ ("0123456789".data),
      c.isDigit = true ∧ c.isWhitespace = false ∧ c ≠ '@' ∧ c ≠ '\n' ∧ c ≠ 'b' := by
  decide

theorem natStr_data_facts (n : Nat) :
    ∀ c ∈ (natStr n).data,
      c.isDigit = true ∧ c.isWhitespace = false ∧ c ≠ '@' ∧ c ≠ '\n' ∧ c ≠ 'b' := by
  rw [natStr_eq_core]
  intro c hc
  exact digit_char_facts c (natStrCore_mem_digits n c hc)

/-! ### takeWhile/dropWhile and prefix lemmas -/

theorem takeWhile_append_all {p : Char → Bool} :
    ∀ (l1 l2 : List Char), (∀ c ∈ l1, p c = true) →
      (l1 ++ l2).takeWhile p = l1 ++ l2.takeWhile p := by
  intro l1
  induction l1 with
  | nil => intro l2 _; rfl
  | cons c rest ih =>
    intro l2 h
    simp only [List.cons_append, List.takeWhile_cons, h c (by simp), if_true]
    rw [ih l2 fun x hx => h x (by simp [hx])]

theorem dropWhile_append_all {p : Char → Bool} :
    ∀ (l1 l2 : List Char), (∀ c ∈ l1, p c = true) →
      (l1 ++ l2).dropWhile p = l2.dropWhile p := by
  intro l1
  induction l1 with
  | nil => intro l2 _; rfl
  | cons c rest ih =>
    intro l2 h
    simp only [List.cons_append, List.dropWhile_cons, h c (by simp), if_true]
    exact ih l2 fun x hx => h x (by simp [hx])

theorem pyStartsWith_strTake (s : String) (n : Nat) :
    pyStartsWith s (strTake s n) = true := by
  unfold pyStartsWith strTake
  rw [List.isPrefixOf_iff_prefix]
  exact List.take_prefix n s.data

/-! ### `parseBranchCmd` on rendered commands -/

theorem parseBranchCmd_flat (i : Nat) :
    parseBranchCmd ('b' :: (natStr i).data) = some (natStr i, none) := by
  rw [natStr_eq_core, parseBranchCmd]
  have hd : ∀ c ∈ natStrCore i, Char.isDigit c = true := natStrCore_digits i
  have ht : (natStrCore i).takeWhile Char.isDigit = natStrCore i := by
    have := takeWhile_append_all (natStrCore i) [] hd
    simpa using this
  have hdrop : (natStrCore i).dropWhile Char.isDigit = [] := by
    have := dropWhile_append_all (natStrCore i) [] hd
    simpa using this
  have hmk : String.mk (natStrCore i) = natStr i := by
    apply String.ext
    rw [natStr_eq_core]
  simp [ht, hdrop, hmk]

theorem parseBranchCmd_stack (i j : Nat) :
    parseBranchCmd ('b' :: ((natStr i).data ++ '@' :: 'b' :: (natStr j).data)) =
      some (natStr i, some (natStr j)) := by
  rw [natStr_eq_core, natStr_eq_core, parseBranchCmd]
  have hdi : ∀ c ∈ natStrCore i, Char.isDigit c = true := natStrCore_digits i
  have hdj : ∀ c ∈ natStrCore j, Char.isDigit c = true := natStrCore_digits j
  have hat : Char.isDigit '@' = false := by decide
  have ht : (natStrCore i ++ '@' :: 'b' :: natStrCore j).takeWhile Char.isDigit =
      natStrCore i := by
    rw [takeWhile_append_all _ _ hdi]
    simp [List.takeWhile_cons, hat]
  have hdrop : (natStrCore i ++ '@' :: 'b' :: natStrCore j).dropWhile Char.isDigit =
      '@' :: 'b' :: natStrCore j := by
    rw [dropWhile_append_all _ _ hdi]
    simp [List.dropWhile_cons, hat]
  have htj : (natStrCore j).takeWhile Char.isDigit = natStrCore j := by
    have := takeWhile_append_all (natStrCore j) [] hdj
    simpa using this
  have hdropj : (natStrCore j).dropWhile Char.isDigit = [] := by
    have := dropWhile_append_all (natStrCore j) [] hdj
    simpa using this
  have hmki : String.mk (natStrCore i) = natStr i := by
    apply String.ext
    rw [natStr_eq_core]
  have hmkj : String.mk (natStrCore j) = natStr j := by
    apply String.ext
    rw [natStr_eq_core]
  simp [ht, hdrop, dropOptB, htj, hdropj, hmki, hmkj]

/-! ### Tokenizing rendered plan lines -/

theorem planLineOf_data (cmdOf : Nat → String) (i : Nat) (c : Commit) :
    (planLineOf cmdOf (i, c)).data =
      (cmdOf i).data ++ ' ' ::
        ((strTake c.sha 8).data ++ ' ' :: c.short_message.data) := by
  show (cmdOf i ++ " " ++ (strTake c.sha 8 ++ " " ++ c.short_message)).data = _
  simp [String.data_append]

theorem pySplit_planLine (cmdOf : Nat → String) (i : Nat) (c : Commit)
    (hcmd1 : (cmdOf i).data ≠ [])
    (hcmd2 : ∀ ch ∈ (cmdOf i).data, ch.isWhitespace = false)
    (hsha1 : (strTake c.sha 8).data ≠ [])
    (hsha2 : ∀ ch ∈ (strTake c.sha 8).data, ch.isWhitespace = false) :
    pySplit (planLineOf cmdOf (i, c)) =
      cmdOf i :: strTake c.sha 8 ::
        (runsOf (fun ch => !ch.isWhitespace) c.short_message.data).map
          (fun r => String.mk r) := by
  unfold pySplit
  rw [planLineOf_data]
  rw [runsOf_run_break _ _ _ _ hcmd1
    (fun x hx => by simp [hcmd2 x hx]) (by decide)]
  rw [runsOf_run_break _ _ _ _ hsha1
    (fun x hx => by simp [hsha2 x hx]) (by decide)]
  rfl

theorem flatCmd_data (i : Nat) : (flatCmd i).data = 'b' :: (natStr i).data := by
  show ("b" ++ natStr i).data = _
  simp [String.data_append]

theorem stackCmd_data_pos (i : Nat) (h : i ≠ 0) :
    (stackCmd i).data =
      'b' :: ((natStr i).data ++ '@' :: 'b' :: (natStr (i - 1)).data) := by
  unfold stackCmd
  rw [if_neg h]
  simp [String.data_append]

theorem stackCmd_data_zero : (stackCmd 0).data = 'b' :: (natStr 0).data := by
  show ("b" ++ natStr 0).data = _
  simp [String.data_append]

theorem flatCmd_chars (i : Nat) :
    (flatCmd i).data ≠ [] ∧
      ∀ ch ∈ (flatCmd i).data, ch.isWhitespace = false ∧ ch ≠ '\n' := by
  rw [flatCmd_data]
  refine ⟨by simp, ?_⟩
  intro ch hch
  rcases List.mem_cons.mp hch with rfl | hm
  · exact ⟨by decide, by decide⟩
  · have := natStr_data_facts i ch hm
    exact ⟨this.2.1, this.2.2.2.1⟩

theorem stackCmd_chars (i : Nat) :
    (stackCmd i).data ≠ [] ∧
      ∀ ch ∈ (stackCmd i).data, ch.isWhitespace = false ∧ ch ≠ '\n' := by
  by_cases h : i = 0
  · subst h
    rw [stackCmd_data_zero]
    refine ⟨by simp, ?_⟩
    intro ch hch
    rcases List.mem_cons.mp hch with rfl | hm
    · exact ⟨by decide, by decide⟩
    · have := natStr_data_facts 0 ch hm
      exact ⟨this.2.1, this.2.2.2.1⟩
  · rw [stackCmd_data_pos i h]
    refine ⟨by simp, ?_⟩
    intro ch hch
    rcases List.mem_cons.mp hch with rfl | hm
    · exact ⟨by decide, by decide⟩
    rcases List.mem_append.mp hm with hm1 | hm2
    · have := natStr_data_facts i ch hm1
      exact ⟨this.2.1, this.2.2.2.1⟩
    rcases List.mem_cons.mp hm2 with rfl | hm3
    · exact ⟨by decide, by decide⟩
    rcases List.mem_cons.mp hm3 with rfl | hm4
    · exact ⟨by decide, by decide⟩
    · have := natStr_data_facts (i - 1) ch hm4
      exact ⟨this.2.1, this.2.2.2.1⟩

theorem pyStartsWith_b {s : String} {t : List Char} (hc : s.data = 'b' :: t) :
    pyStartsWith s "b" = true := by
  unfold pyStartsWith
  rw [hc, List.isPrefixOf_iff_prefix]
  have hb : "b".data = ['b'] := rfl
  rw [hb, List.cons_prefix_cons]
  exact ⟨rfl, List.nil_prefix⟩

theorem tokenizeLine_flat (i : Nat) (c : Commit)
    (hsha1 : (strTake c.sha 8).data ≠ [])
    (hsha2 : ∀ ch ∈ (strTake c.sha 8).data, ch.isWhitespace = false) :
    tokenizeLine (planLineOf flatCmd (i, c)) =
      .ok (some ⟨natStr i, none, strTake c.sha 8⟩) := by
  unfold tokenizeLine
  rw [pySplit_planLine flatCmd i c (flatCmd_chars i).1
    (fun ch hch => ((flatCmd_chars i).2 ch hch).1) hsha1 hsha2]
  have hb : pyStartsWith (flatCmd i) "b" = true := pyStartsWith_b (flatCmd_data i)
  simp only [hb, if_true, flatCmd_data, parseBranchCmd_flat]

theorem tokenizeLine_stack (i : Nat) (c : Commit)
    (hsha1 : (strTake c.sha 8).data ≠ [])
    (hsha2 : ∀ ch ∈ (strTake c.sha 8).data, ch.isWhitespace = false) :
    tokenizeLine (planLineOf stackCmd (i, c)) =
      .ok (some ⟨natStr i, if i = 0 then none else some (natStr (i - 1)),
        strTake c.sha 8⟩) := by
  unfold tokenizeLine
  rw [pySplit_planLine stackCmd i c (stackCmd_chars i).1
    (fun ch hch => ((stackCmd_chars i).2 ch hch).1) hsha1 hsha2]
  by_cases h : i = 0
  · subst h
    have hb : pyStartsWith (stackCmd 0) "b" = true :=
      pyStartsWith_b stackCmd_data_zero
    simp only [hb, if_true, stackCmd_data_zero, parseBranchCmd_flat, if_pos rfl]
  · have hb : pyStartsWith (stackCmd i) "b" = true :=
      pyStartsWith_b (stackCmd_data_pos i h)
    simp only [hb, if_true, stackCmd_data_pos i h, parseBranchCmd_stack, h, if_false]

/-! ### Render-side lemmas for builder trees (towards Claim C2) -/

theorem ne_newline_of_not_ws {ch : Char} (h : ch.isWhitespace = false) : ch ≠ '\n' := by
  intro he
  subst he
  exact absurd h (by decide)

theorem splitCharAux_parts_no_sep (sep : Char) :
    ∀ (l acc : List Char), (∀ c ∈ acc, c ≠ sep) →
      ∀ part ∈ splitCharAux sep l acc, ∀ ch ∈ part.data, ch ≠ sep := by
  intro l
  induction l with
  | nil =>
    intro acc hacc part hp ch hch
    rw [splitCharAux] at hp
    rcases List.mem_singleton.mp hp with rfl
    exact hacc ch (List.mem_reverse.mp hch)
  | cons c rest ih =>
    intro acc hacc part hp ch hch
    by_cases hc : c = sep
    · subst hc
      rw [splitCharAux, if_pos rfl] at hp
      rcases List.mem_cons.mp hp with rfl | hp2
      · exact hacc ch (List.mem_reverse.mp hch)
      · exact ih [] (by simp) part hp2 ch hch
    · rw [splitCharAux, if_neg hc] at hp
      refine ih (c :: acc) ?_ part hp ch hch
      intro x hx
      rcases List.mem_cons.mp hx with rfl | hx2
      · exact hc
      · exact hacc x hx2

theorem short_message_no_newline (c : Commit) :
    ∀ ch ∈ c.short_message.data, ch ≠ '\n' := by
  intro ch hch
  unfold Commit.short_message at hch
  cases hsp : splitChar '\n' c.message with
  | nil => rw [hsp] at hch; simp at hch
  | cons p rest =>
    rw [hsp] at hch
    simp only [List.headD_cons] at hch
    have hmem : p ∈ splitChar '\n' c.message := by rw [hsp]; exact List.mem_cons_self p rest
    unfold splitChar at hmem
    exact splitCharAux_parts_no_sep '\n' c.message.data [] (by simp) p hmem ch hch

theorem pyListIndex_append {α : Type} [DecidableEq α] :
    ∀ (pre : List α) (x : α) (post : List α), x ∉ pre →
      pyListIndex (pre ++ x :: post) x = some pre.length := by
  intro pre
  induction pre with
  | nil => intro x post _; simp [pyListIndex]
  | cons y rest ih =>
    intro x post hx
    rw [List.cons_append, pyListIndex]
    have hne : y ≠ x := fun he => hx (by simp [he])
    rw [if_neg hne, ih x post (fun h => hx (by simp [h]))]
    rfl

theorem renderKey_single (locals : List Commit) {d : Delta} {c : Commit}
    (hd : d.commits = [c]) {i : Nat} (hidx : pyListIndex locals c = some i) :
    renderKey locals d = .ok (i, d) := by
  unfold renderKey
  rw [hd]
  simp only [List.head?_cons, Bind.bind, Except.bind, hidx]

theorem mapM_renderKey_singles (locals : List Commit) (hnd : locals.Nodup) :
    ∀ (cs pre : List Commit) (ds : List Delta),
      locals = pre ++ cs →
      List.Forall₂ (fun d c => d.commits = [c]) ds cs →
      ds.mapM (renderKey locals) = .ok (ds.enumFrom pre.length) := by
  intro cs
  induction cs with
  | nil =>
    intro pre ds _ hf
    rcases List.forall₂_nil_right_iff.mp hf with rfl
    rfl
  | cons c rest ih =>
    intro pre ds hl hf
    cases hf with
    | cons hdc hf' =>
      rename_i d ds'
      rw [List.mapM_cons]
      have hcpre : c ∉ pre := by
        have hdisj := List.disjoint_of_nodup_append (hl ▸ hnd)
        exact fun hm => hdisj hm (List.mem_cons_self c rest)
      have hidx : pyListIndex locals c = some pre.length := by
        rw [hl]; exact pyListIndex_append pre c rest hcpre
      rw [renderKey_single locals hdc hidx]
      simp only [Bind.bind, Except.bind]
      rw [ih (pre ++ [c]) ds' (by rw [hl]; simp) hf']
      simp [pure, Except.pure, List.enumFrom_cons]

theorem sortInsert_le (x : Nat × Delta) :
    ∀ l : List (Nat × Delta), (∀ y ∈ l, x.1 ≤ y.1) → sortInsert x l = x :: l := by
  intro l
  cases l with
  | nil => intro _; rfl
  | cons y rest => intro h; rw [sortInsert, if_pos (h y (by simp))]

theorem enumFrom_fst_le {α : Type} :
    ∀ (l : List α) (k : Nat) (y : Nat × α), y ∈ l.enumFrom k → k ≤ y.1 := by
  intro l
  induction l with
  | nil => intro k y h; simp at h
  | cons a rest ih =>
    intro k y h
    rw [List.enumFrom_cons] at h
    rcases List.mem_cons.mp h with rfl | h2
    · exact Nat.le_refl k
    · exact Nat.le_trans (Nat.le_succ k) (ih (k + 1) y h2)

theorem sortByKey_enumFrom (ds : List Delta) :
    ∀ k, sortByKey (ds.enumFrom k) = ds.enumFrom k := by
  induction ds with
  | nil => intro k; rfl
  | cons d rest ih =>
    intro k
    rw [List.enumFrom_cons]
    show sortInsert (k, d) (sortByKey (rest.enumFrom (k + 1))) = _
    rw [ih (k + 1)]
    exact sortInsert_le (k, d) _
      (fun y hy => Nat.le_trans (Nat.le_succ k) (enumFrom_fst_le rest (k + 1) y hy))

theorem forall2_singles_map (g : Commit → Delta) (hg : ∀ c, (g c).commits = [c]) :
    ∀ cs : List Commit, List.Forall₂ (fun d c => d.commits = [c]) (cs.map g) cs := by
  intro cs
  induction cs with
  | nil => exact List.Forall₂.nil
  | cons c rest ih => exact List.Forall₂.cons (hg c) ih

theorem forall2_mem_left {R : Delta → Commit → Prop} :
    ∀ {l1 : List Delta} {l2 : List Commit}, List.Forall₂ R l1 l2 →
      ∀ x ∈ l1, ∃ y ∈ l2, R x y := by
  intro l1 l2 h
  induction h with
  | nil => intro x hx; simp at hx
  | cons hab h2 ih =>
    intro x hx
    rcases List.mem_cons.mp hx with rfl | hx2
    · exact ⟨_, List.mem_cons_self _ _, hab⟩
    · rcases ih x hx2 with ⟨y, hy, hr⟩
      exact ⟨y, List.mem_cons_of_mem _ hy, hr⟩

theorem forall2_concat {R : Delta → Commit → Prop} {l1 : List Delta} {l2 : List Commit}
    (h : List.Forall₂ R l1 l2) {a : Delta} {b : Commit} (hab : R a b) :
    List.Forall₂ R (l1 ++ [a]) (l2 ++ [b]) := by
  induction h with
  | nil => exact List.Forall₂.cons hab List.Forall₂.nil
  | cons hxy h2 ih => exact List.Forall₂.cons hxy ih

theorem findDeltaIdx_split :
    ∀ (preD : List Delta) (preC : List Commit) (k : Nat) (c : Commit) (d : Delta)
      (postD : List Delta),
      List.Forall₂ (fun d2 c2 => d2.commits = [c2]) preD preC →
      c ∉ preC → d.commits = [c] →
      findDeltaIdx c k (preD ++ d :: postD) = some (k + preD.length, d) := by
  intro preD
  induction preD with
  | nil =>
    intro preC k c d postD hf _ hd
    rw [List.nil_append, findDeltaIdx]
    rw [hd]
    simp
  | cons d2 restD ih =>
    intro preC k c d postD hf hc hd
    cases hf with
    | cons hdc hf' =>
      rename_i c2 restC
      rw [List.cons_append, findDeltaIdx]
      have hne : c ≠ c2 := fun he => hc (he ▸ List.mem_cons_self c2 restC)
      have hcont : d2.commits.contains c = false := by
        rw [hdc]
        simp [hne]
      rw [hcont]
      simp only [Bool.false_eq_true, if_false]
      rw [ih restC (k + 1) c d postD hf' (fun hm => hc (List.mem_cons_of_mem _ hm)) hd]
      congr 2
      simp [List.length_cons]
      omega

theorem mapM_renderLine_flat (app : App) (locals : List Commit) (hnd : locals.Nodup) :
    ∀ (cs pre : List Commit),
      locals = pre ++ cs →
      cs.mapM (renderLine (locals.map (fun c => singleDelta app c none))) =
        .ok ((cs.enumFrom pre.length).map (planLineOf flatCmd)) := by
  intro cs
  induction cs with
  | nil => intro pre _; rfl
  | cons c rest ih =>
    intro pre hl
    rw [List.mapM_cons]
    have hcpre : c ∉ pre := by
      have hdisj := List.disjoint_of_nodup_append (hl ▸ hnd)
      exact fun hm => hdisj hm (List.mem_cons_self c rest)
    have hsplit : locals.map (fun c2 => singleDelta app c2 none) =
        (pre.map fun c2 => singleDelta app c2 none) ++
          singleDelta app c none :: (rest.map fun c2 => singleDelta app c2 none) := by
      rw [hl]; simp
    have hfd : findDeltaIdx c 0 (locals.map fun c2 => singleDelta app c2 none) =
        some (pre.length, singleDelta app c none) := by
      rw [hsplit]
      have := findDeltaIdx_split (pre.map fun c2 => singleDelta app c2 none) pre 0 c
        (singleDelta app c none) (rest.map fun c2 => singleDelta app c2 none)
        (forall2_singles_map _ (fun c2 => singleDelta_commits app c2 none) pre)
        hcpre (singleDelta_commits app c none)
      simpa using this
    have hline : renderLine (locals.map fun c2 => singleDelta app c2 none) c =
        .ok (planLineOf flatCmd (pre.length, c)) := by
      unfold renderLine
      rw [hfd]
      simp only [singleDelta_target]
      simp [Bind.bind, Except.bind, pure, Except.pure, planLineOf, flatCmd]
    rw [hline]
    simp only [Bind.bind, Except.bind]
    rw [ih (pre ++ [c]) (by rw [hl]; simp)]
    simp [pure, Except.pure, List.enumFrom_cons]

theorem dictValues_flatTree (app : App) (cs : List Commit) :
    dictValues (flatTree app cs) = cs.map fun c => singleDelta app c none := by
  unfold dictValues flatTree
  rw [List.map_map]
  rfl

theorem render_plan_flat (app : App)
    (hup : app.upstreamExists = true) (hloc : app.localExists = true)
    (hmsg : (app.localCommits.map (·.message)).Nodup) :
    app.render_plan (flatTree app app.localCommits) =
      .ok (joinSep "\n" ((app.localCommits.enumFrom 0).map (planLineOf flatCmd))) := by
  have hnd : app.localCommits.Nodup := List.Nodup.of_map _ hmsg
  unfold App.render_plan
  rw [get_local_commits_ok app hup hloc hmsg]
  simp only [Bind.bind, Except.bind]
  rw [dictValues_flatTree]
  rw [mapM_renderKey_singles app.localCommits hnd app.localCommits [] _ rfl
    (forall2_singles_map _ (fun c => singleDelta_commits app c none) app.localCommits)]
  simp only [List.length_nil]
  rw [sortByKey_enumFrom, List.enumFrom_map_snd]
  rw [mapM_renderLine_flat app app.localCommits hnd app.localCommits [] rfl]
  simp [pure, Except.pure]

theorem stackDeltas_forall2 (app : App) :
    ∀ (cs : List Commit) (t : Option Delta),
      List.Forall₂ (fun d c => d.commits = [c]) (stackDeltas app cs t) cs := by
  intro cs
  induction cs with
  | nil => intro t; exact List.Forall₂.nil
  | cons c rest ih =>
    intro t
    rw [stackDeltas]
    exact List.Forall₂.cons (singleDelta_commits app c t) (ih _)

theorem mapM_renderLine_stack (app : App) (locals : List Commit) (hnd : locals.Nodup) :
    ∀ (cs pre : List Commit) (preD : List Delta) (tcur : Option Delta),
      locals = pre ++ cs →
      stackDeltas app locals none = preD ++ stackDeltas app cs tcur →
      List.Forall₂ (fun d c => d.commits = [c]) preD pre →
      ((pre = [] ∧ preD = [] ∧ tcur = none) ∨
        (∃ pre2 b preD2 dl, pre = pre2 ++ [b] ∧ preD = preD2 ++ [dl] ∧
          tcur = some dl ∧ dl.commits = [b] ∧
          List.Forall₂ (fun d c => d.commits = [c]) preD2 pre2)) →
      cs.mapM (renderLine (stackDeltas app locals none)) =
        .ok ((cs.enumFrom pre.length).map (planLineOf stackCmd)) := by
  intro cs
  induction cs with
  | nil => intro pre preD tcur _ _ _ _; rfl
  | cons c rest ih =>
    intro pre preD tcur hl hsd hf hinv
    rw [List.mapM_cons]
    have hlen : preD.length = pre.length := hf.length_eq
    have hcpre : c ∉ pre := by
      have hdisj := List.disjoint_of_nodup_append (hl ▸ hnd)
      exact fun hm => hdisj hm (List.mem_cons_self c rest)
    rw [stackDeltas] at hsd
    have hfd : findDeltaIdx c 0 (stackDeltas app locals none) =
        some (pre.length, singleDelta app c tcur) := by
      rw [hsd]
      have := findDeltaIdx_split preD pre 0 c (singleDelta app c tcur)
        (stackDeltas app rest (some (singleDelta app c tcur)))
        hf hcpre (singleDelta_commits app c tcur)
      simpa [hlen] using this
    have hline : renderLine (stackDeltas app locals none) c =
        .ok (planLineOf stackCmd (pre.length, c)) := by
      unfold renderLine
      rw [hfd]
      simp only [singleDelta_target]
      rcases hinv with ⟨hp, hpd, ht⟩ | ⟨pre2, b, preD2, dl, hp, hpd, ht, hdl, hf2⟩
      · subst hp; subst ht
        simp [Bind.bind, Except.bind, pure, Except.pure, planLineOf, stackCmd]
      · subst ht
        have hbpre2 : b ∉ pre2 := by
          have hsplit2 : locals = pre2 ++ b :: (c :: rest) := by rw [hl, hp]; simp
          have hdisj := List.disjoint_of_nodup_append (hsplit2 ▸ hnd)
          exact fun hm => hdisj hm (List.mem_cons_self b _)
        have hdlpre : dl ∉ preD2 := by
          intro hm
          rcases forall2_mem_left hf2 dl hm with ⟨b2, hb2, hcomm⟩
          rw [hdl] at hcomm
          simp only [List.cons.injEq, and_true] at hcomm
          exact hbpre2 (hcomm ▸ hb2)
        have hidx : pyListIndex (stackDeltas app locals none) dl = some pre2.length := by
          rw [hsd, hpd]
          have hre : (preD2 ++ [dl]) ++ singleDelta app c (some dl) ::
              stackDeltas app rest (some (singleDelta app c (some dl))) =
              preD2 ++ dl :: (singleDelta app c (some dl) ::
                stackDeltas app rest (some (singleDelta app c (some dl)))) := by simp
          rw [hre, pyListIndex_append preD2 dl _ hdlpre]
          rw [hf2.length_eq]
        subst hp
        simp only [Bind.bind, Except.bind, hidx]
        simp [planLineOf, stackCmd, pure, Except.pure, Nat.add_sub_cancel,
          List.length_append]
    rw [hline]
    simp only [Bind.bind, Except.bind]
    rw [ih (pre ++ [c]) (preD ++ [singleDelta app c tcur]) (some (singleDelta app c tcur))
      (by rw [hl]; simp)
      (by rw [hsd]; simp)
      (forall2_concat hf (singleDelta_commits app c tcur))
      (Or.inr ⟨pre, c, preD, singleDelta app c tcur, rfl, rfl, rfl,
        singleDelta_commits app c tcur, hf⟩)]
    simp [pure, Except.pure, List.enumFrom_cons]

theorem dictValues_stackTree (app : App) (cs : List Commit) :
    dictValues (stackTree app cs) = stackDeltas app cs none := by
  unfold dictValues stackTree
  rw [List.map_map]
  exact List.map_id _

theorem render_plan_stack (app : App)
    (hup : app.upstreamExists = true) (hloc : app.localExists = true)
    (hmsg : (app.localCommits.map (·.message)).Nodup) :
    app.render_plan (stackTree app app.localCommits) =
      .ok (joinSep "\n" ((app.localCommits.enumFrom 0).map (planLineOf stackCmd))) := by
  have hnd : app.localCommits.Nodup := List.Nodup.of_map _ hmsg
  unfold App.render_plan
  rw [get_local_commits_ok app hup hloc hmsg]
  simp only [Bind.bind, Except.bind]
  rw [dictValues_stackTree]
  rw [mapM_renderKey_singles app.localCommits hnd app.localCommits [] _ rfl
    (stackDeltas_forall2 app app.localCommits none)]
  simp only [List.length_nil]
  rw [sortByKey_enumFrom, List.enumFrom_map_snd]
  rw [mapM_renderLine_stack app app.localCommits hnd app.localCommits [] [] none rfl
    (by simp) List.Forall₂.nil (Or.inl ⟨rfl, rfl, rfl⟩)]
  simp [pure, Except.pure]

/-! ### Parse-side lemmas: recovering the plan lines (towards Claim C2) -/

theorem updateLast_append {α : Type} (l : List α) (x : α) (f : α → α) :
    updateLast (l ++ [x]) f = l ++ [f x] := by
  unfold updateLast
  rw [List.getLast?_concat, List.dropLast_concat]

theorem pyStartsWith_hash_of_b {s : String} {t : List Char} (hc : s.data = 'b' :: t) :
    pyStartsWith s "#" = false := by
  unfold pyStartsWith
  rw [hc]
  rfl

theorem isBlank_of_b {s : String} {t : List Char} (hc : s.data = 'b' :: t) :
    isBlank s = false := by
  unfold isBlank
  rw [hc]
  rfl

theorem planLine_flat_head (i : Nat) (c : Commit) :
    ∃ t, (planLineOf flatCmd (i, c)).data = 'b' :: t := by
  rw [planLineOf_data, flatCmd_data]
  exact ⟨_, by rw [List.cons_append]⟩

theorem planLine_stack_head (i : Nat) (c : Commit) :
    ∃ t, (planLineOf stackCmd (i, c)).data = 'b' :: t := by
  rw [planLineOf_data]
  by_cases h : i = 0
  · subst h; rw [stackCmd_data_zero]; exact ⟨_, by rw [List.cons_append]⟩
  · rw [stackCmd_data_pos i h]; exact ⟨_, by rw [List.cons_append]⟩

theorem planLine_no_newline (cmdOf : Nat → String)
    (hcmd : ∀ (j : Nat), ∀ ch ∈ (cmdOf j).data, ch ≠ '\n')
    (i : Nat) (c : Commit)
    (hsha : ∀ ch ∈ (strTake c.sha 8).data, ch.isWhitespace = false) :
    ∀ ch ∈ (planLineOf cmdOf (i, c)).data, ch ≠ '\n' := by
  intro ch hch
  rw [planLineOf_data] at hch
  rcases List.mem_append.mp hch with h1 | h2
  · exact hcmd i ch h1
  rcases List.mem_cons.mp h2 with rfl | h3
  · decide
  rcases List.mem_append.mp h3 with h4 | h5
  · exact ne_newline_of_not_ws (hsha ch h4)
  rcases List.mem_cons.mp h5 with rfl | h6
  · decide
  · exact short_message_no_newline c ch h6

theorem iteratePlan_planLines (lines : List String) (hne : lines ≠ [])
    (hnl : ∀ l ∈ lines, ∀ ch ∈ l.data, ch ≠ '\n')
    (hhead : ∀ l ∈ lines, ∃ t, l.data = 'b' :: t) :
    iteratePlan (joinSep "\n" lines) = lines := by
  unfold iteratePlan
  rw [splitChar_joinSep '\n' "\n" rfl lines hne hnl]
  apply List.filter_eq_self.mpr
  intro l hl
  rcases hhead l hl with ⟨t, ht⟩
  rw [pyStartsWith_hash_of_b ht, isBlank_of_b ht]
  rfl

/-! ### Parse-side lemmas: commit-list grouping (towards Claim C2) -/

/-- One `_make_commit_lists` step on a branch-command line whose label
differs from the last open group's: a fresh group is created, the line's
commit is consumed from the cursor and appended, and the line's target
label (if any) is recorded on the fresh group. -/
theorem makeCommitListsGo_step_new_group
    (line : String) (rest : List String) (branches : List CommitList)
    (cursor : List Commit) (c : Commit) (cursor2 : List Commit)
    (label : String) (tl : Option String) (sha : String)
    (htok : tokenizeLine line = .ok (some ⟨label, tl, sha⟩))
    (hlast : (branches.getLast?).map (·.label) ≠ some label)
    (hfind : findConsume cursor sha = some (c, cursor2)) :
    makeCommitListsGo (line :: rest) branches cursor =
      makeCommitListsGo rest (branches ++ [⟨label, tl, [c]⟩]) cursor2 := by
  rw [makeCommitListsGo]
  simp only [htok]
  rw [if_neg hlast]
  simp only [hfind]
  rw [updateLast_append]
  cases tl with
  | none => rfl
  | some t =>
    simp only [List.getLast?_concat]
    rw [updateLast_append]
    rfl

theorem makeCommitLists_flat :
    ∀ (cs : List Commit) (k : Nat) (branches : List CommitList),
      (∀ c ∈ cs, (strTake c.sha 8).data ≠ [] ∧
        ∀ ch ∈ (strTake c.sha 8).data, ch.isWhitespace = false) →
      (branches.getLast?).map (·.label) ≠ some (natStr k) →
      makeCommitListsGo ((cs.enumFrom k).map (planLineOf flatCmd)) branches cs =
        .ok (branches ++ (cs.enumFrom k).map flatList) := by
  intro cs
  induction cs with
  | nil => intro k branches _ _; simp [makeCommitListsGo]
  | cons c rest ih =>
    intro k branches hsha hlast
    rw [List.enumFrom_cons, List.map_cons, List.map_cons]
    rw [makeCommitListsGo_step_new_group _ _ _ _ c rest (natStr k) none (strTake c.sha 8)
      (tokenizeLine_flat k c (hsha c (by simp)).1 (fun ch hch => (hsha c (by simp)).2 ch hch))
      hlast
      (by rw [findConsume, if_pos (pyStartsWith_strTake c.sha 8)])]
    have hgroup : Option.map (fun x => x.label)
        ((branches ++ [(⟨natStr k, none, [c]⟩ : CommitList)]).getLast?) ≠
          some (natStr (k + 1)) := by
      rw [List.getLast?_concat]
      intro he
      simp only [Option.map_some'] at he
      have := natStr_inj (Option.some.inj he)
      omega
    rw [ih (k + 1) _ (fun c2 hc2 => hsha c2 (by simp [hc2])) hgroup]
    simp [flatList]

theorem makeCommitLists_stack :
    ∀ (cs : List Commit) (k : Nat) (branches : List CommitList),
      (∀ c ∈ cs, (strTake c.sha 8).data ≠ [] ∧
        ∀ ch ∈ (strTake c.sha 8).data, ch.isWhitespace = false) →
      (branches.getLast?).map (·.label) ≠ some (natStr k) →
      makeCommitListsGo ((cs.enumFrom k).map (planLineOf stackCmd)) branches cs =
        .ok (branches ++ (cs.enumFrom k).map stackList) := by
  intro cs
  induction cs with
  | nil => intro k branches _ _; simp [makeCommitListsGo]
  | cons c rest ih =>
    intro k branches hsha hlast
    rw [List.enumFrom_cons, List.map_cons, List.map_cons]
    rw [makeCommitListsGo_step_new_group _ _ _ _ c rest (natStr k)
      (if k = 0 then none else some (natStr (k - 1))) (strTake c.sha 8)
      (tokenizeLine_stack k c (hsha c (by simp)).1
        (fun ch hch => (hsha c (by simp)).2 ch hch))
      hlast
      (by rw [findConsume, if_pos (pyStartsWith_strTake c.sha 8)])]
    have hgroup : Option.map (fun x => x.label)
        ((branches ++ [(⟨natStr k, if k = 0 then none else some (natStr (k - 1)),
            [c]⟩ : CommitList)]).getLast?) ≠
          some (natStr (k + 1)) := by
      rw [List.getLast?_concat]
      intro he
      simp only [Option.map_some'] at he
      have := natStr_inj (Option.some.inj he)
      omega
    rw [ih (k + 1) _ (fun c2 hc2 => hsha c2 (by simp [hc2])) hgroup]
    simp [stackList]

/-! ### `_build_tree` over the parsed commit-lists of rendered plans -/

theorem contains_append_left {α : Type} [BEq α] (l1 l2 : List α) (y : α)
    (h : l1.contains y = true) : (l1 ++ l2).contains y = true := by
  induction l1 with
  | nil => simp at h
  | cons a t ih =>
    rw [List.cons_append, List.contains_cons]
    rw [List.contains_cons] at h
    rcases Bool.or_eq_true_iff.mp h with h1 | h2
    · exact Bool.or_eq_true_iff.mpr (Or.inl h1)
    · exact Bool.or_eq_true_iff.mpr (Or.inr (ih h2))

theorem contains_setInsert (l : List (Option String)) (x y : Option String)
    (h : l.contains y = true) : (setInsert l x).contains y = true := by
  unfold setInsert
  by_cases hc : l.contains x = true
  · rw [if_pos hc]; exact h
  · rw [if_neg hc]; exact contains_append_left l [x] y h

theorem buildTreeD_flat (app : App) :
    ∀ (cs : List Commit) (k : Nat) (deltas : Dict Delta) (valid : List (Option String)),
      valid.contains none = true →
      (∀ i, k ≤ i → dictMem deltas (natStr i) = false) →
      buildTreeDGo app ((cs.enumFrom k).map flatList) deltas none valid =
        .ok (deltas ++
          (cs.enumFrom k).map fun p => (natStr p.1, singleDelta app p.2 none)) := by
  intro cs
  induction cs with
  | nil => intro k deltas valid _ _; simp [buildTreeDGo]
  | cons c rest ih =>
    intro k deltas valid hv hfresh
    rw [List.enumFrom_cons, List.map_cons, List.map_cons]
    rw [buildTreeDGo_cons_eq]
    simp only [flatList]
    rw [if_pos hv]
    simp only [resolveTarget]
    rw [create_delta_single app c none]
    have hnt : ¬¬True := fun h => h trivial
    simp only [ne_eq, if_neg hnt]
    rw [dictInsert_of_not_mem _ (hfresh k (Nat.le_refl k))]
    have hv2 : (setInsert valid (some (natStr k))).contains none = true :=
      contains_setInsert valid (some (natStr k)) none hv
    have hfresh2 : ∀ i, k + 1 ≤ i →
        dictMem (deltas ++ [(natStr k, singleDelta app c none)]) (natStr i) = false := by
      intro i hi
      rw [dictMem_append, hfresh i (by omega), dictMem_singleton]
      have hne : natStr k ≠ natStr i := fun he => by
        have := natStr_inj he; omega
      simp [hne]
    rw [ih (k + 1) (deltas ++ [(natStr k, singleDelta app c none)])
      (setInsert valid (some (natStr k))) hv2 hfresh2]
    simp

theorem buildTreeD_stack_tail (app : App) :
    ∀ (cs : List Commit) (k : Nat) (deltas : Dict Delta) (last : Option String)
      (valid : List (Option String)) (dPrev : Delta),
      dictGet? deltas (natStr k) = some dPrev →
      valid.contains (some (natStr k)) = true →
      last ≠ some (natStr k) →
      (∀ i, k < i → dictMem deltas (natStr i) = false) →
      buildTreeDGo app ((cs.enumFrom (k + 1)).map stackList) deltas last valid =
        .ok (deltas ++ stackPairsFrom app (k + 1) cs dPrev) := by
  intro cs
  induction cs with
  | nil =>
    intro k deltas last valid dPrev _ _ _ _
    simp [buildTreeDGo, stackPairsFrom]
  | cons c rest ih =>
    intro k deltas last valid dPrev hget hcont hlast hfresh
    rw [List.enumFrom_cons, List.map_cons]
    rw [buildTreeDGo_cons_eq]
    have hsl : stackList (k + 1, c) =
        (⟨natStr (k + 1), some (natStr k), [c]⟩ : CommitList) := by
      simp [stackList]
    simp only [hsl]
    rw [if_pos hcont]
    simp only [resolveTarget, hget]
    rw [create_delta_single app c (some dPrev)]
    have hne1 : ¬((some (natStr k) : Option String) = last) := fun h => hlast h.symm
    simp only [ne_eq, if_pos hne1]
    have hset : setInsert [some (natStr k)] (some (natStr (k + 1))) =
        [some (natStr k), some (natStr (k + 1))] := by
      unfold setInsert
      rw [if_neg ?_]
      · rfl
      · rw [List.contains_cons]
        simp only [List.contains_nil, Bool.or_false]
        simp only [beq_iff_eq, Option.some.injEq]
        exact fun he => (by omega : ¬(k + 1 = k)) (natStr_inj he)
    rw [hset]
    rw [dictInsert_of_not_mem _ (hfresh (k + 1) (by omega))]
    have hget2 : dictGet? (deltas ++ [(natStr (k + 1), singleDelta app c (some dPrev))])
        (natStr (k + 1)) = some (singleDelta app c (some dPrev)) := by
      have h := dictGet_insert_self deltas (natStr (k + 1)) (singleDelta app c (some dPrev))
      rwa [dictInsert_of_not_mem _ (hfresh (k + 1) (by omega))] at h
    have hcont2 : ([some (natStr k), some (natStr (k + 1))] :
        List (Option String)).contains (some (natStr (k + 1))) = true := by
      simp
    have hlast2 : (some (natStr k) : Option String) ≠ some (natStr (k + 1)) := by
      intro he
      have := natStr_inj (Option.some.inj he)
      omega
    have hfresh2 : ∀ i, k + 1 < i →
        dictMem (deltas ++ [(natStr (k + 1), singleDelta app c (some dPrev))])
          (natStr i) = false := by
      intro i hi
      rw [dictMem_append, hfresh i (by omega), dictMem_singleton]
      have hne : natStr (k + 1) ≠ natStr i := fun he => by
        have := natStr_inj he; omega
      simp [hne]
    rw [ih (k + 1) (deltas ++ [(natStr (k + 1), singleDelta app c (some dPrev))])
      (some (natStr k)) [some (natStr k), some (natStr (k + 1))]
      (singleDelta app c (some dPrev)) hget2 hcont2 hlast2 hfresh2]
    rw [stackPairsFrom]
    simp

theorem buildTreeD_stack (app : App) (c0 : Commit) (rest : List Commit) :
    buildTreeDGo app (((c0 :: rest).enumFrom 0).map stackList) [] none [none] =
      .ok ((natStr 0, singleDelta app c0 none) ::
        stackPairsFrom app 1 rest (singleDelta app c0 none)) := by
  rw [List.enumFrom_cons, List.map_cons]
  rw [buildTreeDGo_cons_eq]
  have hsl : stackList (0, c0) = (⟨natStr 0, none, [c0]⟩ : CommitList) := by
    simp [stackList]
  simp only [hsl]
  rw [if_pos (by decide)]
  simp only [resolveTarget]
  rw [create_delta_single app c0 none]
  have hnt : ¬¬True := fun h => h trivial
  simp only [ne_eq, if_neg hnt]
  have hmem0 : dictMem ([] : Dict Delta) (natStr 0) = false := rfl
  rw [dictInsert_of_not_mem _ hmem0, List.nil_append]
  have hset : setInsert [none] (some (natStr 0)) = [none, some (natStr 0)] := by
    unfold setInsert
    rw [if_neg (by decide)]
    rfl
  rw [hset]
  have hget : dictGet? [(natStr 0, singleDelta app c0 none)] (natStr 0) =
      some (singleDelta app c0 none) := by
    have h := dictGet_insert_self [] (natStr 0) (singleDelta app c0 none)
    rwa [dictInsert_of_not_mem _ hmem0, List.nil_append] at h
  have hcont : ([none, some (natStr 0)] : List (Option String)).contains
      (some (natStr 0)) = true := by simp
  have hlast : (none : Option String) ≠ some (natStr 0) := fun h => Option.noConfusion h
  have hfresh : ∀ i, 0 < i →
      dictMem [(natStr 0, singleDelta app c0 none)] (natStr i) = false := by
    intro i hi
    rw [dictMem_singleton]
    have hne : natStr 0 ≠ natStr i := fun he => by
      have := natStr_inj he; omega
    simp [hne]
  rw [buildTreeD_stack_tail app rest 0 [(natStr 0, singleDelta app c0 none)]
    none [none, some (natStr 0)] (singleDelta app c0 none) hget hcont hlast hfresh]
  rfl

/-! ### Rekeying the label dict by branch name -/

theorem rekey_of_fresh :
    ∀ (ps acc : Dict Delta),
      (∀ p ∈ ps, dictMem acc p.2.branch_name = false) →
      ((ps.map fun p => p.2.branch_name).Nodup) →
      ps.foldl (fun acc2 p => dictInsert acc2 p.2.branch_name p.2) acc =
        acc ++ ps.map fun p => (p.2.branch_name, p.2) := by
  intro ps
  induction ps with
  | nil => intro acc _ _; simp
  | cons p rest ih =>
    intro acc hf hnd
    rw [List.map_cons, List.nodup_cons] at hnd
    rw [List.foldl_cons, dictInsert_of_not_mem _ (hf p (by simp))]
    have hf2 : ∀ q ∈ rest,
        dictMem (acc ++ [(p.2.branch_name, p.2)]) q.2.branch_name = false := by
      intro q hq
      rw [dictMem_append, hf q (by simp [hq]), dictMem_singleton]
      have hne : p.2.branch_name ≠ q.2.branch_name := fun he =>
        hnd.1 (by rw [he]; exact List.mem_map_of_mem _ hq)
      simp [hne]
    rw [ih (acc ++ [(p.2.branch_name, p.2)]) hf2 hnd.2]
    simp

theorem rekeyByBranchName_eq (ps : Dict Delta)
    (hnd : (ps.map fun p => p.2.branch_name).Nodup) :
    rekeyByBranchName ps = ps.map fun p => (p.2.branch_name, p.2) := by
  unfold rekeyByBranchName
  rw [rekey_of_fresh ps [] (fun p _ => rfl) hnd]
  simp

theorem stackPairsFrom_values (app : App) :
    ∀ (cs : List Commit) (k : Nat) (dPrev : Delta),
      (stackPairsFrom app k cs dPrev).map (·.2) = stackDeltas app cs (some dPrev) := by
  intro cs
  induction cs with
  | nil => intro k dPrev; rfl
  | cons c rest ih =>
    intro k dPrev
    rw [stackPairsFrom, stackDeltas, List.map_cons]
    rw [ih (k + 1) (singleDelta app c (some dPrev))]

theorem stackDeltas_names (app : App) :
    ∀ (cs : List Commit) (t : Option Delta),
      (stackDeltas app cs t).map Delta.branch_name =
        cs.map app.get_commit_branch_name := by
  intro cs
  induction cs with
  | nil => intro t; rfl
  | cons c rest ih =>
    intro t
    rw [stackDeltas, List.map_cons, List.map_cons, singleDelta_branch_name, ih]

theorem flat_pairs_map (app : App) :
    ∀ (cs : List Commit) (k : Nat),
      ((cs.enumFrom k).map fun p => (natStr p.1, singleDelta app p.2 none)).map
        (fun p => (p.2.branch_name, p.2)) = flatTree app cs := by
  intro cs
  induction cs with
  | nil => intro k; rfl
  | cons c rest ih =>
    intro k
    simp only [List.enumFrom_cons, List.map_cons, singleDelta_branch_name]
    rw [ih (k + 1)]
    rfl

theorem flat_pairs_names (app : App) :
    ∀ (cs : List Commit) (k : Nat),
      ((cs.enumFrom k).map fun p => (natStr p.1, singleDelta app p.2 none)).map
        (fun p => p.2.branch_name) = cs.map app.get_commit_branch_name := by
  intro cs
  induction cs with
  | nil => intro k; rfl
  | cons c rest ih =>
    intro k
    simp only [List.enumFrom_cons, List.map_cons, singleDelta_branch_name]
    rw [ih (k + 1)]

theorem stack_pairs_names (app : App) (c0 : Commit) (rest : List Commit) :
    (((natStr 0, singleDelta app c0 none) ::
        stackPairsFrom app 1 rest (singleDelta app c0 none)).map
      fun p => p.2.branch_name) = (c0 :: rest).map app.get_commit_branch_name := by
  rw [List.map_cons, List.map_cons]
  have htail : (stackPairsFrom app 1 rest (singleDelta app c0 none)).map
      (fun p => p.2.branch_name) =
      ((stackPairsFrom app 1 rest (singleDelta app c0 none)).map (·.2)).map
        Delta.branch_name := by
    rw [List.map_map]; rfl
  rw [htail, stackPairsFrom_values, stackDeltas_names, singleDelta_branch_name]

theorem stack_pairs_map (app : App) (c0 : Commit) (rest : List Commit) :
    (((natStr 0, singleDelta app c0 none) ::
        stackPairsFrom app 1 rest (singleDelta app c0 none)).map
      fun p => (p.2.branch_name, p.2)) = stackTree app (c0 :: rest) := by
  rw [List.map_cons]
  have htail : (stackPairsFrom app 1 rest (singleDelta app c0 none)).map
      (fun p => (p.2.branch_name, p.2)) =
      ((stackPairsFrom app 1 rest (singleDelta app c0 none)).map (·.2)).map
        (fun d => (d.branch_name, d)) := by
    rw [List.map_map]; rfl
  rw [htail, stackPairsFrom_values]
  unfold stackTree
  rw [stackDeltas, List.map_cons]

theorem build_tree_from_lists_flat (app : App) (cs : List Commit)
    (hname : (cs.map app.get_commit_branch_name).Nodup) :
    app.build_tree_from_lists ((cs.enumFrom 0).map flatList) = .ok (flatTree app cs) := by
  unfold App.build_tree_from_lists
  rw [buildTreeD_flat app cs 0 [] [none] (by decide) (fun i _ => rfl)]
  simp only [Except.map, List.nil_append]
  rw [rekeyByBranchName_eq _ (by rw [flat_pairs_names]; exact hname)]
  rw [flat_pairs_map]

theorem build_tree_from_lists_stack (app : App) (c0 : Commit) (rest : List Commit)
    (hname : ((c0 :: rest).map app.get_commit_branch_name).Nodup) :
    app.build_tree_from_lists (((c0 :: rest).enumFrom 0).map stackList) =
      .ok (stackTree app (c0 :: rest)) := by
  unfold App.build_tree_from_lists
  rw [buildTreeD_stack app c0 rest]
  simp only [Except.map]
  rw [rekeyByBranchName_eq _ (by rw [stack_pairs_names]; exact hname)]
  rw [stack_pairs_map]

theorem mem_of_mem_enumFrom {α : Type} {y : Nat × α} {l : List α} {k : Nat}
    (h : y ∈ l.enumFrom k) : y.2 ∈ l := by
  have h2 := List.mem_map_of_mem Prod.snd h
  rwa [List.enumFrom_map_snd] at h2

theorem parse_plan_flat (app : App)
    (hup : app.upstreamExists = true) (hloc : app.localExists = true)
    (hmsg : (app.localCommits.map (·.message)).Nodup)
    (hname : (app.localCommits.map app.get_commit_branch_name).Nodup)
    (hsha : ∀ c ∈ app.localCommits, (strTake c.sha 8).data ≠ [] ∧
      ∀ ch ∈ (strTake c.sha 8).data, ch.isWhitespace = false) :
    app.parse_plan (joinSep "\n"
        ((app.localCommits.enumFrom 0).map (planLineOf flatCmd))) =
      .ok (flatTree app app.localCommits) := by
  unfold App.parse_plan App.make_commit_lists
  rw [get_local_commits_ok app hup hloc hmsg]
  simp only [Bind.bind, Except.bind]
  cases hcs : app.localCommits with
  | nil => rfl
  | cons c0 rest =>
    have hsha2 : ∀ c ∈ c0 :: rest, (strTake c.sha 8).data ≠ [] ∧
        ∀ ch ∈ (strTake c.sha 8).data, ch.isWhitespace = false := hcs ▸ hsha
    have hname2 : ((c0 :: rest).map app.get_commit_branch_name).Nodup := hcs ▸ hname
    have hit : iteratePlan (joinSep "\n"
        (((c0 :: rest).enumFrom 0).map (planLineOf flatCmd))) =
        ((c0 :: rest).enumFrom 0).map (planLineOf flatCmd) := by
      apply iteratePlan_planLines
      · simp
      · intro l hl
        rcases List.mem_map.mp hl with ⟨p, hp, rfl⟩
        exact planLine_no_newline flatCmd
          (fun j ch2 hch2 => ((flatCmd_chars j).2 ch2 hch2).2) p.1 p.2
          (fun ch2 hch2 => (hsha2 p.2 (mem_of_mem_enumFrom hp)).2 ch2 hch2)
      · intro l hl
        rcases List.mem_map.mp hl with ⟨p, hp, rfl⟩
        exact planLine_flat_head p.1 p.2
    rw [hit]
    rw [makeCommitLists_flat (c0 :: rest) 0 [] hsha2 (by simp)]
    show app.build_tree_from_lists ([] ++ ((c0 :: rest).enumFrom 0).map flatList) =
      .ok (flatTree app (c0 :: rest))
    rw [List.nil_append]
    exact build_tree_from_lists_flat app (c0 :: rest) hname2

theorem parse_plan_stack (app : App)
    (hup : app.upstreamExists = true) (hloc : app.localExists = true)
    (hmsg : (app.localCommits.map (·.message)).Nodup)
    (hname : (app.localCommits.map app.get_commit_branch_name).Nodup)
    (hsha : ∀ c ∈ app.localCommits, (strTake c.sha 8).data ≠ [] ∧
      ∀ ch ∈ (strTake c.sha 8).data, ch.isWhitespace = false) :
    app.parse_plan (joinSep "\n"
        ((app.localCommits.enumFrom 0).map (planLineOf stackCmd))) =
      .ok (stackTree app app.localCommits) := by
  unfold App.parse_plan App.make_commit_lists
  rw [get_local_commits_ok app hup hloc hmsg]
  simp only [Bind.bind, Except.bind]
  cases hcs : app.localCommits with
  | nil => rfl
  | cons c0 rest =>
    have hsha2 : ∀ c ∈ c0 :: rest, (strTake c.sha 8).data ≠ [] ∧
        ∀ ch ∈ (strTake c.sha 8).data, ch.isWhitespace = false := hcs ▸ hsha
    have hname2 : ((c0 :: rest).map app.get_commit_branch_name).Nodup := hcs ▸ hname
    have hit : iteratePlan (joinSep "\n"
        (((c0 :: rest).enumFrom 0).map (planLineOf stackCmd))) =
        ((c0 :: rest).enumFrom 0).map (planLineOf stackCmd) := by
      apply iteratePlan_planLines
      · simp
      · intro l hl
        rcases List.mem_map.mp hl with ⟨p, hp, rfl⟩
        exact planLine_no_newline stackCmd
          (fun j ch2 hch2 => ((stackCmd_chars j).2 ch2 hch2).2) p.1 p.2
          (fun ch2 hch2 => (hsha2 p.2 (mem_of_mem_enumFrom hp)).2 ch2 hch2)
      · intro l hl
        rcases List.mem_map.mp hl with ⟨p, hp, rfl⟩
        exact planLine_stack_head p.1 p.2
    rw [hit]
    rw [makeCommitLists_stack (c0 :: rest) 0 [] hsha2 (by simp)]
    show app.build_tree_from_lists ([] ++ ((c0 :: rest).enumFrom 0).map stackList) =
      .ok (stackTree app (c0 :: rest))
    rw [List.nil_append]
    exact build_tree_from_lists_stack app c0 rest hname2

/-! ### Claim C2 -/

/-- Claim C2 (corrected): for every Delta tree produced by the tree
builder (`build_tree`, either stacking mode) over the local commits —
under the spec's ambient invariants: existing upstream and local refs,
duplicate-free commit messages, distinct derived branch names, and
non-empty whitespace-free 8-character sha prefixes — `render_plan`
succeeds and `parse_plan` of the rendered plan returns exactly the same
tree (branch-name-keyed).  The reconstructor half of the original claim
is false: see `claim_c2_counterexample`, where a reconstructed tree
renders to a plan whose parse fails with an "invalid target" error. -/
theorem claim_c2 (app : App) (stack : Bool) (tree : Dict Delta)
    (hup : app.upstreamExists = true) (hloc : app.localExists = true)
    (hmsg : (app.localCommits.map (·.message)).Nodup)
    (hname : (app.localCommits.map app.get_commit_branch_name).Nodup)
    (hsha : ∀ c ∈ app.localCommits, (strTake c.sha 8).data ≠ [] ∧
      ∀ ch ∈ (strTake c.sha 8).data, ch.isWhitespace = false)
    (hbuild : app.build_tree stack = .ok tree) :
    ∃ plan, app.render_plan tree = .ok plan ∧ app.parse_plan plan = .ok tree := by
  cases stack with
  | false =>
    have hbt : app.build_tree false = .ok (flatTree app app.localCommits) := by
      unfold App.build_tree
      rw [get_local_commits_ok app hup hloc hmsg]
      simp only [Bind.bind, Except.bind]
      rw [buildTreeGo_flat app app.localCommits [] (fun c _ => rfl) hname]
      rfl
    rw [hbt] at hbuild
    have htree := Except.ok.inj hbuild
    subst htree
    exact ⟨_, render_plan_flat app hup hloc hmsg,
      parse_plan_flat app hup hloc hmsg hname hsha⟩
  | true =>
    have hbt : app.build_tree true = .ok (stackTree app app.localCommits) := by
      unfold App.build_tree
      rw [get_local_commits_ok app hup hloc hmsg]
      simp only [Bind.bind, Except.bind]
      rw [buildTreeGo_stack app app.localCommits [] none (fun c _ => rfl) hname]
      rfl
    rw [hbt] at hbuild
    have htree := Except.ok.inj hbuild
    subst htree
    exact ⟨_, render_plan_stack app hup hloc hmsg,
      parse_plan_stack app hup hloc hmsg hname hsha⟩

/-- Claim C2 witness: the four-commit fixture, stacked; the builder's
chain renders to a plan that parses back to the same tree. -/
theorem claim_c2_witness :
    ∃ plan, wApp.render_plan (stackTree wApp wApp.localCommits) = .ok plan ∧
      wApp.parse_plan plan = .ok (stackTree wApp wApp.localCommits) :=
  claim_c2 wApp true (stackTree wApp wApp.localCommits) (by decide) (by decide)
    (by decide) (by decide) (by decide) (by decide)

/-- Claim C2 counterexample: `cexApp`'s reconstructor recovers a tree
(commits `a`-`b` stacked, `c` independent), its rendered plan interleaves
the stack with the independent Delta, and parsing that plan fails with
the fatal "invalid target" error instead of returning the tree — so the
round trip does not hold for reconstructed trees. -/
theorem claim_c2_counterexample :
    cexApp.reconstruct_tree = .ok cexTree ∧
    cexApp.render_plan cexTree = .ok cexPlan ∧
    cexApp.parse_plan cexPlan =
      .error (.planError "invalid target for \"2\": \"None\""
        ["re-order commits with `git rebase --interactive main main`"]) :=
  ⟨by decide, by decide, by decide⟩

end Dflock
